import Mathlib

/-!
Shallow embedding of the adaptive radix tree (ART) from `src/art.rs` of the
`radix` repository, together with theorems settling the frozen claims about it.

Modelling conventions:
* Bytes are `Nat` (the code only compares bytes; values fed in are `< 256`).
* Raw child pointers `*mut Node<T>` become `Option (Node T)`; the null pointer
  is `none`.  Ownership in the source is tree shaped, so this is faithful.
* Fixed arrays (`[u8; 10]`, `[*mut _; 4]`, ...) become lists kept at their
  source length; `ptr::copy` / `copy_within` become explicit list operations.
* Rust slice indexing `key[depth]` is modelled by `List.getD` with default `0`
  and slicing `key[depth..]` by `List.drop`; theorems carry explicit bounds so
  that they only speak about executions where the source does not panic.
* The `while !iter_node.is_null()` driver loops of `insert`, `find`, `delete`
  and the BFS of `bfs_count` are modelled with an explicit fuel parameter
  bounding the number of loop iterations; on finite trees a fuel larger than
  the node depth makes the model agree with the loop, and all theorems supply
  ample fuel.
* `bfs_count` dereferences every pointer it pops; dereferencing a null pointer
  is undefined behaviour in the source, modelled by the result `none`.
-/

namespace Radix

/-- Big-endian byte encoding of a `w`-byte fixed-width integer, the model of
the `ArtKey` instances generated by the `doit!` macro (`to_be_bytes`). -/
def beBytes (w x : Nat) : List Nat :=
  (List.range w).map (fun i => x / 256 ^ (w - 1 - i) % 256)

/-- Model of `common_prefix`: the number of equal leading bytes of two
byte slices. -/
def commonPfx : List Nat → List Nat → Nat
  | a :: as, b :: bs => if a = b then commonPfx as bs + 1 else 0
  | _, _ => 0

/-- Model of `MAX_PREFIX_LEN`. -/
def maxPrefixLen : Nat := 10

/-- Model of the `Info` header: `count` children, the ten-byte `partial`
array (here `pfx`, kept at length 10) and the logical `partial_len`
(here `pfxLen`), which may exceed `maxPrefixLen`. -/
structure Info where
  count : Nat
  pfx : List Nat
  pfxLen : Nat
  deriving Repr, DecidableEq

/-- Model of `Node<T>`: the leaf node and the four inner variants.
`childPointers` and `key` keep the array layouts of `Node4`, `Node16`,
`Node48` (whose `key` is the 256-byte indirection map) and `Node256`. -/
inductive Node (T : Type) where
  | leaf (key : List Nat) (value : T) : Node T
  | n4 (childPointers : List (Option (Node T))) (info : Info) (key : List Nat) : Node T
  | n16 (childPointers : List (Option (Node T))) (info : Info) (key : List Nat) : Node T
  | n48 (childPointers : List (Option (Node T))) (key : List Nat) (info : Info) : Node T
  | n256 (childPointers : List (Option (Node T))) (info : Info) : Node T

variable {T : Type}

/-- The `info()` accessor of the `ArtNode` trait (junk on leaves, which have
no header in the source). -/
def Node.infoOf : Node T → Info
  | .leaf _ _ => ⟨0, [], 0⟩
  | .n4 _ i _ => i
  | .n16 _ i _ => i
  | .n48 _ _ i => i
  | .n256 _ i => i

/-- The `info_mut()` write access: replace the header of an inner node. -/
def Node.setInfo : Node T → Info → Node T
  | .leaf k v, _ => .leaf k v
  | .n4 cp _ k, i => .n4 cp i k
  | .n16 cp _ k, i => .n16 cp i k
  | .n48 cp k _, i => .n48 cp k i
  | .n256 cp _, i => .n256 cp i

/-- The `child_pointers()` accessor of the `ArtNode` trait. -/
def Node.cps : Node T → List (Option (Node T))
  | .leaf _ _ => []
  | .n4 cp _ _ => cp
  | .n16 cp _ _ => cp
  | .n48 cp _ _ => cp
  | .n256 cp _ => cp

/-- Write one slot of an inner node's child array (a store through the
`&mut *mut Node<T>` handle that `find_child` returns). -/
def Node.setChildAt : Node T → Nat → Option (Node T) → Node T
  | .leaf k v, _, _ => .leaf k v
  | .n4 cp i k, j, c => .n4 (cp.set j c) i k
  | .n16 cp i k, j, c => .n16 (cp.set j c) i k
  | .n48 cp k i, j, c => .n48 (cp.set j c) k i
  | .n256 cp i, j, c => .n256 (cp.set j c) i

def Node.isLeaf : Node T → Bool
  | .leaf _ _ => true
  | _ => false

def Node.isN4 : Node T → Bool
  | .n4 _ _ _ => true
  | _ => false

def Node.isN16 : Node T → Bool
  | .n16 _ _ _ => true
  | _ => false

def Node.isN48 : Node T → Bool
  | .n48 _ _ _ => true
  | _ => false

def Node.isN256 : Node T → Bool
  | .n256 _ _ => true
  | _ => false

/-- The `key` array of an inner node (for `Node48` the 256-byte map; empty on
leaves and on `Node256`, which has none). -/
def Node.keysOf : Node T → List Nat
  | .leaf _ _ => []
  | .n4 _ _ k => k
  | .n16 _ _ k => k
  | .n48 _ k _ => k
  | .n256 _ _ => []

/-! Array manipulation helpers, modelling `copy_within` / `ptr::copy` moves. -/

/-- Model of `copy_within(i..count, i + 1)`: shift the elements at positions
`[i, count)` one place right, leaving everything else in place
(the element at position `i` is then overwritten by the caller). -/
def shiftIns (i count : Nat) (l : List α) : List α :=
  l.take (i + 1) ++ (l.drop i).take (count - i) ++ l.drop (count + 1)

/-- Model of `ptr::copy(src.offset(pos + 1), dst.offset(pos), count - 1 - pos)`:
shift the elements at positions `[pos + 1, count)` one place left; the element
at position `count - 1` keeps its stale value, as in the source. -/
def shiftDel (pos count : Nat) (l : List α) : List α :=
  l.take pos ++ (l.drop (pos + 1)).take (count - 1 - pos) ++ l.drop (count - 1)

/-- Model of `ptr::copy_nonoverlapping(src, dst.offset(i), n)` into a list:
overwrite positions `[i, i + xs.length)` of `l` with `xs`. -/
def overwrite (l : List α) (i : Nat) (xs : List α) : List α :=
  l.take i ++ xs ++ l.drop (i + xs.length)

/-! Child lookup (`find_child`).  Each variant returns the index of the slot
in its `child_pointers` array that the source would hand back as an
`&mut *mut Node<T>` (for `Node256` the byte itself). -/

/-- `Node4::find_child`: linear scan of the first `count` key bytes. -/
def findIdx4 (keys : List Nat) (count b : Nat) : Option Nat :=
  (List.range count).find? (fun i => keys.getD i 0 = b)

/-- The signed `i8` view of a byte, which is what the SSE2 comparison
`_mm_cmplt_epi8` in `Node16` uses. -/
def sByte (x : Nat) : Int :=
  if x % 256 < 128 then (x % 256 : Int) else (x % 256 : Int) - 256

/-- `Node16::find_child`: `_mm_cmpeq_epi8` plus `(1 << count) - 1` mask, then
the lowest set bit, i.e. the first index `< count` holding the byte.  Equality
of `i8` lanes is equality of the underlying bytes. -/
def findIdx16 (keys : List Nat) (count b : Nat) : Option Nat :=
  (List.range count).find? (fun i => keys.getD i 0 = b)

/-- `Node48::find_child`: the 256-byte map gives the slot unless it holds the
sentinel `48`.  The source returns the slot without checking it for null. -/
def findIdx48 (keymap : List Nat) (b : Nat) : Option Nat :=
  if keymap.getD b 48 ≠ 48 then some (keymap.getD b 48) else none

/-- `Node256::find_child`: the byte indexes the array directly, and the source
does check the slot for null here. -/
def findIdx256 (cp : List (Option (Node T))) (b : Nat) : Option Nat :=
  if (cp.getD b none).isSome then some b else none

/-- Variant dispatch for `find_child`, returning the slot index. -/
def Node.findChildIdx : Node T → Nat → Option Nat
  | .leaf _ _, _ => none
  | .n4 _ info keys, b => findIdx4 keys info.count b
  | .n16 _ info keys, b => findIdx16 keys info.count b
  | .n48 _ keymap _, b => findIdx48 keymap b
  | .n256 cp _, b => findIdx256 cp b

/-! Child insertion (`add`). -/

/-- The insertion-position loop of `Node4::add`: walk `i` while `i < 3` and
`i < count`, stopping at the first key byte greater than `b` (unsigned). -/
def n4pos (keys : List Nat) (count b : Nat) : Nat :=
  ((List.range (min 3 count)).find? (fun i => b < keys.getD i 0)).getD (min 3 count)

/-- `Node4::add`: find the position, shift the suffix right when
`i != 3 && count != 0`, then store the key byte and the child. -/
def node4add (cp : List (Option (Node T))) (keys : List Nat) (info : Info)
    (child : Option (Node T)) (k : List Nat) (depth : Nat) :
    List (Option (Node T)) × List Nat × Info :=
  let b := k.getD depth 0
  let i := n4pos keys info.count b
  let keys1 := if i ≠ 3 ∧ info.count ≠ 0 then shiftIns i info.count keys else keys
  let cp1 := if i ≠ 3 ∧ info.count ≠ 0 then shiftIns i info.count cp else cp
  (cp1.set i child, keys1.set i b, { info with count := info.count + 1 })

/-- The insertion position of `Node16::add`: `_mm_cmplt_epi8` compares the
new byte against the sixteen stored bytes as signed `i8`; after masking with
`(1 << count) - 1`, `trailing_zeros` gives the first index `< count` whose
byte is (signedly) greater than `b`; if the bitfield is zero the new entry
goes to position `count`. -/
def n16pos (keys : List Nat) (count b : Nat) : Nat :=
  ((List.range count).find? (fun i => sByte b < sByte (keys.getD i 0))).getD count

/-- `Node16::add`: signed-compare position, shift when the bitfield was
non-zero (shifting at `i = count` is a no-op, so we shift unconditionally),
then store the key byte and the child. -/
def node16add (cp : List (Option (Node T))) (keys : List Nat) (info : Info)
    (child : Option (Node T)) (k : List Nat) (depth : Nat) :
    List (Option (Node T)) × List Nat × Info :=
  let b := k.getD depth 0
  let i := n16pos keys info.count b
  let keys1 := shiftIns i info.count keys
  let cp1 := shiftIns i info.count cp
  (cp1.set i child, keys1.set i b, { info with count := info.count + 1 })

/-- `Node48::add`: scan `child_pointers` for the first free (null) slot,
store the child there and record the slot in the byte map. -/
def node48add (cp : List (Option (Node T))) (keymap : List Nat) (info : Info)
    (child : Option (Node T)) (k : List Nat) (depth : Nat) :
    List (Option (Node T)) × List Nat × Info :=
  let i := (cp.findIdx (fun s => s.isNone))
  (cp.set i child, keymap.set (k.getD depth 0) i, { info with count := info.count + 1 })

/-- `Node256::add`: store the child at the byte's position. -/
def node256add (cp : List (Option (Node T))) (info : Info)
    (child : Option (Node T)) (k : List Nat) (depth : Nat) :
    List (Option (Node T)) × Info :=
  (cp.set (k.getD depth 0) child, { info with count := info.count + 1 })

/-- `Node4::new(prefix)`: empty child array, key array zeroed, `partial`
filled with the first `min(MAX_PREFIX_LEN, prefix.len())` bytes of the given
prefix and `partial_len` set to that (truncated) length. -/
def node4new (pfxSrc : List Nat) : List (Option (Node T)) × Info × List Nat :=
  let m := min maxPrefixLen pfxSrc.length
  (List.replicate 4 none,
   ⟨0, pfxSrc.take m ++ List.replicate (maxPrefixLen - m) 0, m⟩,
   List.replicate 4 0)

/-- The in-place prefix shift of `split_check`: after `partial_len -= cm`,
`partial[i] = partial[cm + i]` for `i < partial_len`; later positions keep
their stale bytes. -/
def pfxShift (cm : Nat) (info : Info) : Info :=
  let pl := info.pfxLen - cm
  { info with
    pfxLen := pl
    pfx := (List.range info.pfx.length).map
      (fun i => if i < pl then info.pfx.getD (cm + i) 0 else info.pfx.getD i 0) }

/-- Result of `split_check`: either the node was split and the fresh `Node4`
was written to the parent slot, or the depth advanced past the partial and
`find_child` produced a slot (or nothing). -/
inductive SplitRes (T : Type) where
  | splitted (r : Node T) : SplitRes T
  | noSplit (d2 : Nat) (slot : Option Nat) : SplitRes T

/-- Model of the default `ArtNode::split_check`.  `cm` is the number of bytes
of `partial[..partial_len]` matched by the key at the current depth.  On a
mismatch a fresh `Node4` takes the common part of the partial, adopts the new
leaf under `key[depth + cm]` and the current node (its partial shifted by
`cm`) under `partial[cm]`, and replaces the current node in the parent slot. -/
def Node.splitCheck (n : Node T) (k : List Nat) (depth : Nat) (newLeaf : Node T) :
    SplitRes T :=
  let info := n.infoOf
  let cm := commonPfx (info.pfx.take info.pfxLen) (k.drop depth)
  if cm ≠ info.pfxLen then
    let s0 := node4new (T := T) (info.pfx.take cm)
    let s1 := node4add s0.1 s0.2.2 s0.2.1 (some newLeaf) k (depth + cm)
    let modified := n.setInfo (pfxShift cm info)
    let s2 := node4add s1.1 s1.2.1 s1.2.2 (some modified) info.pfx cm
    .splitted (.n4 s2.1 s2.2.2 s2.2.1)
  else
    .noSplit (depth + info.pfxLen)
      (n.findChildIdx (k.getD (depth + info.pfxLen) 0))

/-- The `else` branches of the four `insert` impls: add the new leaf to the
current node, growing it to the next variant first when it is full.
`d2` is the depth after the partial was consumed. -/
def addOrGrow (n : Node T) (k : List Nat) (d2 : Nat) (newLeaf : Node T) : Node T :=
  match n with
  | .leaf lk lv => .leaf lk lv
  | .n4 cp info keys =>
    if info.count < 4 then
      let s := node4add cp keys info (some newLeaf) k d2
      .n4 s.1 s.2.2 s.2.1
    else
      -- grow to Node16: `new_with_info` then memcpy of `count` keys/children
      let cp16 := cp.take info.count ++ List.replicate (16 - info.count) none
      let keys16 := keys.take info.count ++ List.replicate (16 - info.count) 0
      let s := node16add cp16 keys16 info (some newLeaf) k d2
      .n16 s.1 s.2.2 s.2.1
  | .n16 cp info keys =>
    if info.count < 16 then
      let s := node16add cp keys info (some newLeaf) k d2
      .n16 s.1 s.2.2 s.2.1
    else
      -- grow to Node48: memcpy children, then `key[keys[i]] = i` for i < count
      let cp48 := cp.take info.count ++ List.replicate (48 - info.count) none
      let keymap := (List.range info.count).foldl
        (fun m i => m.set (keys.getD i 0) i) (List.replicate 256 48)
      let s := node48add cp48 keymap info (some newLeaf) k d2
      .n48 s.1 s.2.1 s.2.2
  | .n48 cp keymap info =>
    if info.count < 48 then
      let s := node48add cp keymap info (some newLeaf) k d2
      .n48 s.1 s.2.1 s.2.2
    else
      -- grow to Node256: for each byte with a non-sentinel map entry, place
      -- the child at that byte's position
      let cp256 := (List.range 256).map
        (fun i => if keymap.getD i 48 ≠ 48 then cp.getD (keymap.getD i 48) none else none)
      let s := node256add cp256 info (some newLeaf) k d2
      .n256 s.1 s.2
  | .n256 cp info =>
    let s := node256add cp info (some newLeaf) k d2
    .n256 s.1 s.2

/-- One replacement subtree per step of the `Art::insert` driver loop: at a
leaf, overwrite the value or split into a `Node4`; at an inner node run
`split_check`, then descend, add, or grow.  The fuel bounds the number of
loop iterations; `fuel = 0` returns the subtree unchanged (the loop did not
terminate within the allotted iterations, which never happens for the fuels
used in the theorems below). -/
def insertRec : Nat → Node T → List Nat → Nat → T → Node T
  | 0, n, _, _, _ => n
  | fuel + 1, n, k, depth, v =>
    match n with
    | .leaf lk lv =>
      let cm := depth + commonPfx (lk.drop depth) (k.drop depth)
      if k.length = cm then .leaf lk v
      else
        let s0 := node4new (T := T) ((k.drop depth).take (cm - depth))
        let s1 := node4add s0.1 s0.2.2 s0.2.1 (some (.leaf k v)) k cm
        let s2 := node4add s1.1 s1.2.1 s1.2.2 (some (.leaf lk lv)) lk cm
        .n4 s2.1 s2.2.2 s2.2.1
    | n =>
      match n.splitCheck k depth (.leaf k v) with
      | .splitted r => r
      | .noSplit d2 slot =>
        match slot with
        | some i =>
          match (n.cps).getD i none with
          | some c => n.setChildAt i (some (insertRec fuel c k d2 v))
          | none => n
        | none => addOrGrow n k d2 (.leaf k v)

/-- Model of the `Art::find` loop.  At an inner node the depth advances by
the number of matched partial bytes (stepping back one byte when it would
reach the end of the key), the next key byte selects a child and the loop
descends without advancing past that byte; at a leaf the value is returned
iff the advanced depth reaches the end of the leaf's stored key. -/
def findRec : Nat → Node T → List Nat → Nat → Option T
  | 0, _, _, _ => none
  | fuel + 1, n, k, depth =>
    match n with
    | .leaf lk lv =>
      if depth + commonPfx (lk.drop depth) (k.drop depth) = lk.length
      then some lv else none
    | n =>
      let info := n.infoOf
      let d1 := depth + commonPfx (info.pfx.take info.pfxLen) (k.drop depth)
      let d2 := if d1 = k.length then d1 - 1 else d1
      match n.findChildIdx (k.getD d2 0) with
      | some i =>
        match (n.cps).getD i none with
        | some c => findRec fuel c k d2
        | none => none
      | none => none

/-! Child removal (`delete_child`). -/

/-- `Node4::delete_child`: shift out the slot; if `count` drops to 1, merge
the surviving child up into this node's position.  For an inner surviving
child, the source appends the discriminator byte `key[0]` to this node's
partial (when there is room), then as much of the child's partial as fits,
copies the result into the child's partial, and sets the child's
`partial_len` to `child.partial_len + parent.partial_len + 1`.  The merged
(or, for a leaf, unchanged) child replaces this node in its owner slot.  A
null surviving child would be a null dereference in the source (undefined
behaviour, unreachable on well-formed trees); the model returns the shifted
node in that case. -/
def node4deleteChild (cp : List (Option (Node T))) (keys : List Nat) (info : Info)
    (pos : Nat) : Node T :=
  let keys1 := shiftDel pos info.count keys
  let cp1 := shiftDel pos info.count cp
  let info1 := { info with count := info.count - 1 }
  if info1.count = 1 then
    match cp1.getD 0 none with
    | some c =>
      if c.isLeaf then c
      else
        let acc0 := info1.pfxLen
        let base0 := info1.pfx
        let base1 := if acc0 < maxPrefixLen then base0.set acc0 (keys1.getD 0 0) else base0
        let acc1 := if acc0 < maxPrefixLen then acc0 + 1 else acc0
        let cinfo := c.infoOf
        let sub := min cinfo.pfxLen (maxPrefixLen - acc1)
        let base2 := if acc1 < maxPrefixLen then overwrite base1 acc1 (cinfo.pfx.take sub) else base1
        let acc2 := if acc1 < maxPrefixLen then acc1 + sub else acc1
        c.setInfo
          { cinfo with
            pfx := overwrite cinfo.pfx 0 (base2.take (min acc2 maxPrefixLen))
            pfxLen := cinfo.pfxLen + info1.pfxLen + 1 }
    | none => .n4 cp1 info1 keys1
  else .n4 cp1 info1 keys1

/-- `Node16::delete_child`: shift out the slot; if `count` drops to 3,
shrink to a `Node4` by copying the first four keys and children. -/
def node16deleteChild (cp : List (Option (Node T))) (keys : List Nat) (info : Info)
    (pos : Nat) : Node T :=
  let keys1 := shiftDel pos info.count keys
  let cp1 := shiftDel pos info.count cp
  let info1 := { info with count := info.count - 1 }
  if info1.count = 3 then .n4 (cp1.take 4) info1 (keys1.take 4)
  else .n16 cp1 info1 keys1

/-- `Node48::delete_child`: clear the byte-map entry and null the slot; if
`count` drops to 12, shrink to a `Node16`, walking the byte map in ascending
byte order and emitting the keys and children in that order. -/
def node48deleteChild (cp : List (Option (Node T))) (keymap : List Nat) (info : Info)
    (b : Nat) : Node T :=
  let pos := keymap.getD b 48
  let keymap1 := keymap.set b 48
  let cp1 := cp.set pos none
  let info1 := { info with count := info.count - 1 }
  if info1.count = 12 then
    let present := (List.range 256).filter (fun i => keymap1.getD i 48 ≠ 48)
    let keys16 := (present ++ List.replicate 16 0).take 16
    let cp16 := (present.map (fun i => cp1.getD (keymap1.getD i 48) none)
      ++ List.replicate 16 none).take 16
    .n16 cp16 info1 keys16
  else .n48 cp1 keymap1 info1

/-- `Node256::delete_child`: null the slot; if `count` drops to 35, shrink to
a `Node48`, compacting the non-null children into slots `0..` in ascending
byte order and populating the byte map with their slot indices. -/
def node256deleteChild (cp : List (Option (Node T))) (info : Info) (b : Nat) : Node T :=
  let cp1 := cp.set b none
  let info1 := { info with count := info.count - 1 }
  if info1.count = 35 then
    let present := (List.range 256).filter (fun i => (cp1.getD i none).isSome)
    let cp48 := (present.map (fun i => cp1.getD i none) ++ List.replicate 48 none).take 48
    let keymap := (List.range 256).map
      (fun i => if (cp1.getD i none).isSome then present.indexOf i else 48)
    .n48 cp48 keymap info1
  else .n256 cp1 info1

/-- Variant dispatch for `delete_child`.  `Node4`/`Node16` locate the slot by
the pointer offset (here the slot index `i`); `Node48`/`Node256` use the key
byte `b` remembered during the descent. -/
def Node.deleteChildAt (n : Node T) (i b : Nat) : Node T :=
  match n with
  | .leaf lk lv => .leaf lk lv
  | .n4 cp info keys => node4deleteChild cp keys info i
  | .n16 cp info keys => node16deleteChild cp keys info i
  | .n48 cp keymap info => node48deleteChild cp keymap info b
  | .n256 cp info => node256deleteChild cp info b

/-- Model of the `Art::delete` loop below the root: at an inner node advance
the depth over the partial (with the same end-of-key step-back as `find`),
select a child; if the child is a leaf whose stored key is exhausted by the
advanced depth, remove it via this node's `delete_child` (which may merge or
shrink this node, replacing it in its owner slot — the value this function
returns); otherwise descend. -/
def deleteRec : Nat → Node T → List Nat → Nat → Node T
  | 0, n, _, _ => n
  | fuel + 1, n, k, depth =>
    match n with
    | .leaf lk lv => .leaf lk lv
    | n =>
      let info := n.infoOf
      let d1 := depth + commonPfx (info.pfx.take info.pfxLen) (k.drop depth)
      let d2 := if d1 = k.length then d1 - 1 else d1
      let b := k.getD d2 0
      match n.findChildIdx b with
      | none => n
      | some i =>
        match (n.cps).getD i none with
        | none => n
        | some c =>
          match c with
          | .leaf lk _ =>
            if d2 + commonPfx (lk.drop d2) (k.drop d2) = lk.length
            then n.deleteChildAt i b else n
          | c => n.setChildAt i (deleteRec fuel c k d2)

/-! The BFS node count (`bfs_count`).  The source pushes the first `count`
raw pointers of every inner node's `child_pointers` array and dereferences
each popped pointer; popping a null pointer is a null dereference (undefined
behaviour), modelled by `none`.  The total number of dereferenced nodes does
not depend on the queue order, so the model sums depth-first. -/

mutual

/-- Number of nodes the BFS of `bfs_count` would visit below (and including)
this node, or `none` if it would dereference a null pointer. -/
def countNode : Nat → Node T → Option Nat
  | 0, _ => none
  | _ + 1, .leaf _ _ => some 1
  | fuel + 1, n => (countList fuel ((n.cps).take n.infoOf.count)).map (· + 1)

/-- Sum the BFS visit counts of a pushed slice of child pointers. -/
def countList : Nat → List (Option (Node T)) → Option Nat
  | 0, _ => none
  | _ + 1, [] => some 0
  | _ + 1, none :: _ => none
  | fuel + 1, some c :: rest =>
    (countNode fuel c).bind (fun a => (countList fuel rest).map (a + ·))

end

/-- The tree handle `Art<K, T>`: an owning, possibly-null root pointer.  The
key type parameter only supplies the byte view, so keys enter the model
directly as byte lists. -/
structure Art (T : Type) where
  root : Option (Node T)

/-- `Art::new`. -/
def Art.new : Art T := ⟨none⟩

/-- `Art::insert`: an empty tree gets the new leaf as root, otherwise the
driver loop runs on the root (the fuel bounds its iterations). -/
def Art.insert (fuel : Nat) (t : Art T) (k : List Nat) (v : T) : Art T :=
  match t.root with
  | none => ⟨some (.leaf k v)⟩
  | some r => ⟨some (insertRec fuel r k 0 v)⟩

/-- `Art::find`. -/
def Art.find (fuel : Nat) (t : Art T) (k : List Nat) : Option T :=
  match t.root with
  | none => none
  | some r => findRec fuel r k 0

/-- `Art::delete`: when the root itself is the matching leaf the root pointer
is nulled; otherwise the loop runs on the root. -/
def Art.delete (fuel : Nat) (t : Art T) (k : List Nat) : Art T :=
  match t.root with
  | none => t
  | some (.leaf lk _) => if commonPfx lk k = lk.length then ⟨none⟩ else t
  | some r => ⟨some (deleteRec fuel r k 0)⟩

/-- `Art::bfs_count`: 0 on the empty tree, otherwise the BFS visit count of
the root (with `none` for the null dereference that the source's BFS would
perform on a null queued pointer). -/
def Art.nodeCount (fuel : Nat) (t : Art T) : Option Nat :=
  match t.root with
  | none => some 0
  | some r => countNode fuel r

/-- The child stored under a given key byte: the slot `find_child` returns,
dereferenced. -/
def childByByte (n : Node T) (b : Nat) : Option (Node T) :=
  (n.findChildIdx b).bind (fun i => (n.cps).getD i none)

/-! Basic facts about `common_prefix`. -/

theorem commonPfx_self (l : List Nat) : commonPfx l l = l.length := by
  induction l with
  | nil => rfl
  | cons a as ih => simp [commonPfx, ih]

theorem commonPfx_le_left (a b : List Nat) : commonPfx a b ≤ a.length := by
  induction a generalizing b with
  | nil => simp [commonPfx]
  | cons x xs ih =>
    cases b with
    | nil => simp [commonPfx]
    | cons y ys =>
      by_cases h : x = y <;> simp [commonPfx, h]
      exact ih ys

theorem commonPfx_le_right (a b : List Nat) : commonPfx a b ≤ b.length := by
  induction a generalizing b with
  | nil => simp [commonPfx]
  | cons x xs ih =>
    cases b with
    | nil => simp [commonPfx]
    | cons y ys =>
      by_cases h : x = y <;> simp [commonPfx, h]
      exact ih ys

/-- Where `common_prefix` stops inside both lists, the bytes there differ. -/
theorem commonPfx_stop (a b : List Nat) (ha : commonPfx a b < a.length)
    (hb : commonPfx a b < b.length) :
    a.getD (commonPfx a b) 0 ≠ b.getD (commonPfx a b) 0 := by
  induction a generalizing b with
  | nil => simp at ha
  | cons x xs ih =>
    cases b with
    | nil => simp at hb
    | cons y ys =>
      by_cases h : x = y
      · simpa [commonPfx, h] using ih ys (by simpa [commonPfx, h] using ha)
          (by simpa [commonPfx, h] using hb)
      · simp [commonPfx, h]

/-! Concrete evaluations settling the claims that fail on the code. -/

/-- Claim C1 (insert-find round trip) fails on the code: for the two u128
keys 1 and 2 (16 big-endian bytes sharing a 15-byte common prefix), inserting
both into an empty tree and then looking either key up returns nothing,
because `Node4::new` truncates the split node's `partial_len` from 15 to
`MAX_PREFIX_LEN = 10`, losing five discriminating prefix bytes.  This theorem
evaluates the code at that failing input. -/
theorem c1_u128_roundtrip_fails :
    (((Art.new : Art Nat).insert 64 (beBytes 16 1) 10).insert 64
        (beBytes 16 2) 20).find 64 (beBytes 16 1) = none
    ∧ (((Art.new : Art Nat).insert 64 (beBytes 16 1) 10).insert 64
        (beBytes 16 2) 20).find 64 (beBytes 16 2) = none := by
  constructor <;> decide

/-- Claim C2 (find returns a value iff a leaf's full key equals the query)
fails on the code: after inserting the key `[1, 2]`, looking up `[1, 2, 3]` —
of which the stored key is a strict prefix — returns the stored value, since
the leaf check only tests that the advanced depth reaches the end of the
leaf's key.  This theorem evaluates the code at that failing input. -/
theorem c2_find_accepts_extension_of_stored_key :
    ((Art.new : Art Nat).insert 64 [1, 2] 7).find 64 [1, 2, 3] = some 7 := by
  decide

/-- Claim C6 (inner-node invariants after every operation) fails on the code:
after inserting the u32 keys 10, 20, 30, 200 and 50, the fifth insert grows
the root `Node4` to a `Node16` and places byte 50 after byte 200, because
`_mm_cmplt_epi8` in `Node16::add` compares the key bytes as signed `i8`
(200 is −56 as a signed byte).  The populated key array `[10, 20, 30, 200,
50]` is not strictly ascending.  This theorem evaluates the code at that
failing input. -/
theorem c6_n16_key_array_not_sorted :
    (([10, 20, 30, 200, 50].foldl (fun t n => t.insert 64 (beBytes 4 n) n)
        (Art.new : Art Nat)).root.map
      (fun n => ((Node.keysOf n).take (Node.infoOf n).count, Node.isN16 n))
      = some ([10, 20, 30, 200, 50], true))
    ∧ ¬ List.Pairwise (· < ·) [10, 20, 30, 200, 50] := by
  constructor <;> decide

/-- Claim C8 (insert-delete idempotence) fails on the code: on the tree
holding `[1,2,3,4] ↦ 1` and `[1,2,3,5] ↦ 2` (a root with partial `[1,2,3]`),
inserting the absent key `[1,9,9,9]` splits the root and deleting it again
merges the split back — but `Node4::delete_child` concatenates the
discriminator byte even though, under the split convention of this code, the
surviving child's partial already begins with it.  The root's partial becomes
`[1,2,2,3]` with `partial_len` 4 instead of `[1,2,3]` with 3, and the stored
key `[1,2,3,4]` is no longer findable, although `node_count` is restored.
This theorem evaluates the code at that failing input. -/
theorem c8_insert_delete_corrupts_prefix :
    (((Art.new : Art Nat).insert 64 [1, 2, 3, 4] 1).insert 64
        [1, 2, 3, 5] 2).find 64 [1, 2, 3, 4] = some 1
    ∧ (((((Art.new : Art Nat).insert 64 [1, 2, 3, 4] 1).insert 64
        [1, 2, 3, 5] 2).insert 64 [1, 9, 9, 9] 7).delete 64
        [1, 9, 9, 9]).find 64 [1, 2, 3, 4] = none
    ∧ (((((Art.new : Art Nat).insert 64 [1, 2, 3, 4] 1).insert 64
        [1, 2, 3, 5] 2).insert 64 [1, 9, 9, 9] 7).delete 64
        [1, 9, 9, 9]).nodeCount 64
      = (((Art.new : Art Nat).insert 64 [1, 2, 3, 4] 1).insert 64
        [1, 2, 3, 5] 2).nodeCount 64 := by
  refine ⟨by decide, by decide, by decide⟩

/-- Claim C9 (`bfs_count` returns the exact number of live nodes, including
for trees containing N48 or N256 nodes) fails on the code: insert the 49
two-byte keys `[0, 100] .. [0, 148]`, so the root grows to a `Node256` whose
49 children sit at positions 100–148 of `child_pointers`.  The BFS pushes
`pointers[0..count]`, i.e. the 49 null slots 0–48, and dereferences each
popped pointer — a null dereference (undefined behaviour, modelled as
`none`) instead of the count 50.  This theorem evaluates the code at that
failing input. -/
theorem c9_bfs_count_derefs_null_on_n256 :
    (((List.range 49).foldl (fun t b => t.insert 64 [0, 100 + b] b)
      (Art.new : Art Nat)).root.map (fun n => (Node.isN256 n, (Node.infoOf n).count))
      = some (true, 49))
    ∧ ((List.range 49).foldl (fun t b => t.insert 64 [0, 100 + b] b)
      (Art.new : Art Nat)).nodeCount 64 = none
    ∧ (Art.new : Art Nat).nodeCount 64 = some 0 := by
  refine ⟨by decide, by decide, by decide⟩

/-- Claim C3 as stated is false at a concrete input.  On the tree holding
`[1,2,3,4]` and `[1,2,3,5]` the root has populated partial `[1,2,3]`
(`partial_len` 3); inserting `[1,9,9,9]` matches `cm = 1` byte and splits.
The claim requires the current node to be reattached with its partial shifted
to `partial[cm+1..] = [3]` and its `partial_len` reduced by `cm + 1`, i.e. to
`3 - (1+1) = 1`; the code instead shifts only by `cm`, leaving the reattached
node with `partial_len` 2 and partial `[2,3]` (the discriminator byte 2
remains its first partial byte). -/
theorem c3_counterexample :
    ((((Art.new : Art Nat).insert 64 [1, 2, 3, 4] 1).insert 64
        [1, 2, 3, 5] 2).root.map
      (fun n => (Node.infoOf n).pfx.take (Node.infoOf n).pfxLen) = some [1, 2, 3])
    ∧ (((((Art.new : Art Nat).insert 64 [1, 2, 3, 4] 1).insert 64
          [1, 2, 3, 5] 2).insert 64 [1, 9, 9, 9] 3).root.bind
        (fun n => childByByte n 2)).map
        (fun c => ((Node.infoOf c).pfxLen, (Node.infoOf c).pfx.take 2))
      = some (2, [2, 3])
    ∧ ¬ ((((((Art.new : Art Nat).insert 64 [1, 2, 3, 4] 1).insert 64
          [1, 2, 3, 5] 2).insert 64 [1, 9, 9, 9] 3).root.bind
        (fun n => childByByte n 2)).map (fun c => (Node.infoOf c).pfxLen)
      = some (3 - (1 + 1))) := by
  refine ⟨by decide, by decide, by decide⟩

/-- Claim C7 as stated (over an arbitrary ambient tree) is false at a
concrete input: on a tree that already stores `[1,2,3]`, `insert([1,2], 7);
insert([1,2], 9)` silently overwrites the value of the leaf whose key is
`[1,2,3]` (the leaf branch of `insert` only checks that the inserted key is
exhausted), so `find([1,2])` afterwards returns nothing, not 9. -/
theorem c7_counterexample :
    ¬ (((((Art.new : Art Nat).insert 64 [1, 2, 3] 5).insert 64
        [1, 2] 7).insert 64 [1, 2] 9).find 64 [1, 2] = some 9) := by
  decide

/-- Claim C7 (amended): starting from the empty tree, for every key and every
pair of values, `insert(k, v1); insert(k, v2)` leaves `find(k) = v2`, and the
second insert does not change `node_count` (both counts are 1); in
particular `insert(10, 10); insert(10, 999)` on u32 keys gives
`find(10) = 999` and `node_count = 1`. -/
theorem c7_overwrite_from_empty (fuel : Nat) (k : List Nat) (v1 v2 : Nat)
    (h : 1 ≤ fuel) :
    (((Art.new : Art Nat).insert fuel k v1).insert fuel k v2).find fuel k = some v2
    ∧ (((Art.new : Art Nat).insert fuel k v1).insert fuel k v2).nodeCount fuel = some 1
    ∧ ((Art.new : Art Nat).insert fuel k v1).nodeCount fuel = some 1
    ∧ (((Art.new : Art Nat).insert 64 (beBytes 4 10) 10).insert 64
        (beBytes 4 10) 999).find 64 (beBytes 4 10) = some 999
    ∧ (((Art.new : Art Nat).insert 64 (beBytes 4 10) 10).insert 64
        (beBytes 4 10) 999).nodeCount 64 = some 1 := by
  obtain ⟨f, rfl⟩ : ∃ f, fuel = f + 1 := ⟨fuel - 1, by omega⟩
  refine ⟨?_, ?_, ?_, by decide, by decide⟩ <;>
    simp [Art.insert, Art.new, insertRec, commonPfx_self, Art.find, findRec,
      Art.nodeCount, countNode]

/-- Witness for `c7_overwrite_from_empty` at fuel 1, key `[5]`, values 1, 2. -/
theorem c7_overwrite_from_empty_witness :
    (((Art.new : Art Nat).insert 1 [5] 1).insert 1 [5] 2).find 1 [5] = some 2 :=
  (c7_overwrite_from_empty 1 [5] 1 2 (by decide)).1

/-! Helper lemmas about `setInfo` and the split prefix shift. -/

theorem Node.cps_setInfo (n : Node T) (i : Info) : (n.setInfo i).cps = n.cps := by
  cases n <;> rfl

theorem Node.keysOf_setInfo (n : Node T) (i : Info) :
    (n.setInfo i).keysOf = n.keysOf := by
  cases n <;> rfl

theorem Node.isLeaf_setInfo (n : Node T) (i : Info) :
    (n.setInfo i).isLeaf = n.isLeaf := by
  cases n <;> rfl

theorem Node.infoOf_setInfo (n : Node T) (i : Info) (h : n.isLeaf = false) :
    (n.setInfo i).infoOf = i := by
  cases n <;> simp_all [Node.isLeaf, Node.setInfo, Node.infoOf]

theorem pfxShift_pfxLen (info : Info) (cm : Nat) :
    (pfxShift cm info).pfxLen = info.pfxLen - cm := rfl

theorem pfxShift_count (info : Info) (cm : Nat) :
    (pfxShift cm info).count = info.count := rfl

theorem pfxShift_take (info : Info) (cm : Nat) (hcm : cm ≤ info.pfxLen)
    (hpl : info.pfxLen ≤ info.pfx.length) :
    (pfxShift cm info).pfx.take (info.pfxLen - cm)
      = (info.pfx.drop cm).take (info.pfxLen - cm) := by
  apply List.ext_getElem
  · simp [pfxShift]; omega
  · intro i h1 h2
    simp only [pfxShift] at h1 ⊢
    rw [List.getElem_take, List.getElem_take]
    rw [List.getElem_map, List.getElem_drop]
    simp only [List.getElem_range]
    have hi : i < info.pfxLen - cm := by
      have := h1; simp at this; omega
    rw [if_pos hi]
    rw [List.getD_eq_getElem]

theorem pfxShift_getD_zero (info : Info) (cm : Nat) (h : cm < info.pfxLen)
    (hl : 0 < info.pfx.length) :
    (pfxShift cm info).pfx.getD 0 0 = info.pfx.getD cm 0 := by
  simp only [pfxShift]
  rw [List.getD_eq_getElem _ _ (by simpa using hl)]
  rw [List.getElem_map]
  simp only [List.getElem_range]
  rw [if_pos (by omega)]
  simp

/-- The first `add` into a freshly created `Node4` stores the child at
position 0. -/
theorem node4add_first (child : Option (Node T)) (info0 : Info) (k : List Nat)
    (d : Nat) (h0 : info0.count = 0) :
    node4add (List.replicate 4 none) (List.replicate 4 0) info0 child k d
      = ([child, none, none, none], [k.getD d 0, 0, 0, 0],
          { info0 with count := 1 }) := by
  simp [node4add, n4pos, h0, shiftIns, List.replicate]

/-- The second `add` into the fresh `Node4` keeps both entries sorted by the
unsigned byte comparison of the position loop. -/
theorem node4add_second (c1 c2 : Option (Node T)) (info1 : Info) (kp : List Nat)
    (d : Nat) (b1 : Nat) (h1 : info1.count = 1) :
    node4add [c1, none, none, none] [b1, 0, 0, 0] info1 c2 kp d
      = if kp.getD d 0 < b1
          then ([c2, c1, none, none], [kp.getD d 0, b1, 0, 0],
            { info1 with count := 2 })
          else ([c1, c2, none, none], [b1, kp.getD d 0, 0, 0],
            { info1 with count := 2 }) := by
  by_cases hlt : kp.getD d 0 < b1 <;>
    simp only [List.getD_eq_getElem?_getD] at hlt <;>
    simp [node4add, n4pos, h1, shiftIns, hlt, List.range_succ]

/-- Core characterization of `split_check` on a prefix mismatch, shared by
the split claims: the fresh `Node4` takes the first `cm` partial bytes and
both children (the new leaf under `key[depth + cm]`, the current node under
`partial[cm]`), and the current node's partial is shifted by `cm` — its
`partial_len` becomes `partial_len - cm` and its populated partial becomes
`partial[cm..partial_len]`, so the discriminator byte `partial[cm]` stays as
the first byte of its own partial. -/
theorem splitCheck_mismatch_spec (n : Node T) (k : List Nat) (depth : Nat)
    (newLeaf : Node T) (cm : Nat)
    (hInner : n.isLeaf = false)
    (hcmdef : cm = commonPfx ((n.infoOf).pfx.take (n.infoOf).pfxLen) (k.drop depth))
    (hlen : (n.infoOf).pfx.length = maxPrefixLen)
    (hpl : (n.infoOf).pfxLen ≤ maxPrefixLen)
    (hcm : cm < (n.infoOf).pfxLen)
    (hk : depth + cm < k.length) :
    ∃ r m,
      n.splitCheck k depth newLeaf = .splitted r
      ∧ r.isN4 = true
      ∧ (r.infoOf).count = 2
      ∧ (r.infoOf).pfxLen = cm
      ∧ (r.infoOf).pfx.take cm = (n.infoOf).pfx.take cm
      ∧ childByByte r (k.getD (depth + cm) 0) = some newLeaf
      ∧ childByByte r ((n.infoOf).pfx.getD cm 0) = some m
      ∧ m.cps = n.cps
      ∧ m.keysOf = n.keysOf
      ∧ m.isLeaf = false
      ∧ (m.infoOf).count = (n.infoOf).count
      ∧ (m.infoOf).pfxLen = (n.infoOf).pfxLen - cm
      ∧ (m.infoOf).pfx.take ((n.infoOf).pfxLen - cm)
          = ((n.infoOf).pfx.drop cm).take ((n.infoOf).pfxLen - cm)
      ∧ (m.infoOf).pfx.getD 0 0 = (n.infoOf).pfx.getD cm 0 := by
  have h10 : maxPrefixLen = 10 := rfl
  set info := n.infoOf with hinfo
  set kb := k.getD (depth + cm) 0 with hkb
  set pb := info.pfx.getD cm 0 with hpb
  have hne : kb ≠ pb := by
    have h1 : (info.pfx.take info.pfxLen).getD cm 0 = pb := by
      rw [hpb]
      simp [List.getD, List.getElem?_take, hcm]
    have h2 : (k.drop depth).getD cm 0 = kb := by
      rw [hkb]
      simp [List.getD, List.getElem?_drop]
    have hstop := commonPfx_stop (info.pfx.take info.pfxLen) (k.drop depth)
      (by rw [← hcmdef]; simp [List.length_take]; omega)
      (by rw [← hcmdef]; simp [List.length_drop]; omega)
    rw [← hcmdef, h1, h2] at hstop
    exact fun hEq => hstop (hEq ▸ rfl)
  have hmin : min maxPrefixLen (info.pfx.take cm).length = cm := by
    simp [List.length_take, hlen]; omega
  set m := n.setInfo (pfxShift cm info) with hm
  have heq : n.splitCheck k depth newLeaf =
      .splitted (if pb < kb
        then Node.n4 [some m, some newLeaf, none, none]
          ⟨2, (info.pfx.take cm).take cm
              ++ List.replicate (maxPrefixLen - cm) 0, cm⟩ [pb, kb, 0, 0]
        else Node.n4 [some newLeaf, some m, none, none]
          ⟨2, (info.pfx.take cm).take cm
              ++ List.replicate (maxPrefixLen - cm) 0, cm⟩ [kb, pb, 0, 0]) := by
    rw [Node.splitCheck.eq_def]
    simp only [← hinfo, ← hcmdef]
    rw [if_pos (Nat.ne_of_lt hcm)]
    simp only [node4new, hmin]
    rw [node4add_first _ _ _ _ rfl]
    simp only [← hkb]
    rw [node4add_second _ _ _ _ _ _ rfl]
    simp only [← hpb, ← hm]
    by_cases hlt : pb < kb <;> simp [hlt]
  have hmf : m.isLeaf = false := by rw [hm, Node.isLeaf_setInfo]; exact hInner
  have hmi : m.infoOf = pfxShift cm info := Node.infoOf_setInfo n _ hInner
  have hmc : m.cps = n.cps := Node.cps_setInfo n _
  have hmk : m.keysOf = n.keysOf := Node.keysOf_setInfo n _
  have hlen' : (info.pfx.take cm).length = cm := by
    simp [hlen]; omega
  have hP0 : ((info.pfx.take cm).take cm
      ++ List.replicate (maxPrefixLen - cm) 0).take cm = info.pfx.take cm := by
    rw [List.take_take, Nat.min_self]
    exact List.take_left' hlen'
  have hm1 : (m.infoOf).count = info.count := by rw [hmi, pfxShift_count]
  have hm2 : (m.infoOf).pfxLen = info.pfxLen - cm := by rw [hmi, pfxShift_pfxLen]
  have hm3 : (m.infoOf).pfx.take (info.pfxLen - cm)
      = (info.pfx.drop cm).take (info.pfxLen - cm) := by
    rw [hmi]
    exact pfxShift_take info cm (Nat.le_of_lt hcm) (by omega)
  have hm4 : (m.infoOf).pfx.getD 0 0 = info.pfx.getD cm 0 := by
    rw [hmi]
    exact pfxShift_getD_zero info cm hcm (by omega)
  by_cases hlt : pb < kb
  · refine ⟨Node.n4 [some m, some newLeaf, none, none]
        ⟨2, (info.pfx.take cm).take cm ++ List.replicate (maxPrefixLen - cm) 0, cm⟩
        [pb, kb, 0, 0], m, by rw [heq, if_pos hlt], rfl, rfl, rfl, hP0, ?_, ?_,
      hmc, hmk, hmf, hm1, hm2, hm3, hm4⟩
    · simp [childByByte, Node.findChildIdx, findIdx4, List.range_succ,
        Ne.symm hne, Node.cps]
    · simp [childByByte, Node.findChildIdx, findIdx4, List.range_succ, Node.cps]
  · refine ⟨Node.n4 [some newLeaf, some m, none, none]
        ⟨2, (info.pfx.take cm).take cm ++ List.replicate (maxPrefixLen - cm) 0, cm⟩
        [kb, pb, 0, 0], m, by rw [heq, if_neg hlt], rfl, rfl, rfl, hP0, ?_, ?_,
      hmc, hmk, hmf, hm1, hm2, hm3, hm4⟩
    · simp [childByByte, Node.findChildIdx, findIdx4, List.range_succ, Node.cps]
    · simp [childByByte, Node.findChildIdx, findIdx4, List.range_succ, hne, Node.cps]

theorem findRec_descends (fuel : Nat) (n c : Node T) (k : List Nat)
    (depth cm d2 i : Nat)
    (hInner : n.isLeaf = false)
    (hcm : cm = commonPfx ((n.infoOf).pfx.take (n.infoOf).pfxLen) (k.drop depth))
    (hd2 : d2 = if depth + cm = k.length then depth + cm - 1 else depth + cm)
    (hfind : n.findChildIdx (k.getD d2 0) = some i)
    (hc : (n.cps).getD i none = some c) :
    findRec (fuel + 1) n k depth = findRec fuel c k d2 := by
  cases n with
  | leaf lk lv => simp [Node.isLeaf] at hInner
  | n4 cp info keys =>
    simp only [findRec, Node.infoOf] at hcm ⊢
    rw [← hcm, ← hd2]
    rw [hfind]
    simp only [hc]
  | n16 cp info keys =>
    simp only [findRec, Node.infoOf] at hcm ⊢
    rw [← hcm, ← hd2]
    rw [hfind]
    simp only [hc]
  | n48 cp keys info =>
    simp only [findRec, Node.infoOf] at hcm ⊢
    rw [← hcm, ← hd2]
    rw [hfind]
    simp only [hc]
  | n256 cp info =>
    simp only [findRec, Node.infoOf] at hcm ⊢
    rw [← hcm, ← hd2]
    rw [hfind]
    simp only [hc]

theorem insertRec_descends (fuel : Nat) (n c : Node T) (k : List Nat) (v : T)
    (depth i : Nat)
    (hInner : n.isLeaf = false)
    (hcm : commonPfx ((n.infoOf).pfx.take (n.infoOf).pfxLen) (k.drop depth)
      = (n.infoOf).pfxLen)
    (hfind : n.findChildIdx (k.getD (depth + (n.infoOf).pfxLen) 0) = some i)
    (hc : (n.cps).getD i none = some c) :
    insertRec (fuel + 1) n k depth v
      = n.setChildAt i (insertRec fuel c k (depth + (n.infoOf).pfxLen) v) := by
  cases n with
  | leaf lk lv => simp [Node.isLeaf] at hInner
  | n4 cp info keys =>
    simp only [Node.infoOf] at hcm hfind ⊢
    simp only [insertRec, Node.splitCheck.eq_def, Node.infoOf]
    rw [if_neg (by simp [hcm])]
    rw [hfind]
    simp only [hc]
  | n16 cp info keys =>
    simp only [Node.infoOf] at hcm hfind ⊢
    simp only [insertRec, Node.splitCheck.eq_def, Node.infoOf]
    rw [if_neg (by simp [hcm])]
    rw [hfind]
    simp only [hc]
  | n48 cp keys info =>
    simp only [Node.infoOf] at hcm hfind ⊢
    simp only [insertRec, Node.splitCheck.eq_def, Node.infoOf]
    rw [if_neg (by simp [hcm])]
    rw [hfind]
    simp only [hc]
  | n256 cp info =>
    simp only [Node.infoOf] at hcm hfind ⊢
    simp only [insertRec, Node.splitCheck.eq_def, Node.infoOf]
    rw [if_neg (by simp [hcm])]
    rw [hfind]
    simp only [hc]

theorem deleteRec_descends (fuel : Nat) (n c : Node T) (k : List Nat)
    (depth cm d2 i : Nat)
    (hInner : n.isLeaf = false)
    (hcm : cm = commonPfx ((n.infoOf).pfx.take (n.infoOf).pfxLen) (k.drop depth))
    (hd2 : d2 = if depth + cm = k.length then depth + cm - 1 else depth + cm)
    (hfind : n.findChildIdx (k.getD d2 0) = some i)
    (hc : (n.cps).getD i none = some c)
    (hcInner : c.isLeaf = false) :
    deleteRec (fuel + 1) n k depth = n.setChildAt i (deleteRec fuel c k d2) := by
  cases n with
  | leaf lk lv => simp [Node.isLeaf] at hInner
  | n4 cp info keys =>
    simp only [deleteRec, Node.infoOf] at hcm ⊢
    rw [← hcm, ← hd2]
    rw [hfind]
    simp only [hc]
    cases c with
    | leaf a b => simp [Node.isLeaf] at hcInner
    | n4 _ _ _ => rfl
    | n16 _ _ _ => rfl
    | n48 _ _ _ => rfl
    | n256 _ _ => rfl
  | n16 cp info keys =>
    simp only [deleteRec, Node.infoOf] at hcm ⊢
    rw [← hcm, ← hd2]
    rw [hfind]
    simp only [hc]
    cases c with
    | leaf a b => simp [Node.isLeaf] at hcInner
    | n4 _ _ _ => rfl
    | n16 _ _ _ => rfl
    | n48 _ _ _ => rfl
    | n256 _ _ => rfl
  | n48 cp keys info =>
    simp only [deleteRec, Node.infoOf] at hcm ⊢
    rw [← hcm, ← hd2]
    rw [hfind]
    simp only [hc]
    cases c with
    | leaf a b => simp [Node.isLeaf] at hcInner
    | n4 _ _ _ => rfl
    | n16 _ _ _ => rfl
    | n48 _ _ _ => rfl
    | n256 _ _ => rfl
  | n256 cp info =>
    simp only [deleteRec, Node.infoOf] at hcm ⊢
    rw [← hcm, ← hd2]
    rw [hfind]
    simp only [hc]
    cases c with
    | leaf a b => simp [Node.isLeaf] at hcInner
    | n4 _ _ _ => rfl
    | n16 _ _ _ => rfl
    | n48 _ _ _ => rfl
    | n256 _ _ => rfl


/-- The leaf branch of the `insert` driver on a key mismatch: a fresh `Node4`
whose partial is `key[depth..cm]` (so its first byte is `key[depth]`, the
byte under which the replaced leaf was referenced) adopts the new leaf under
byte `key[cm]` and the old leaf under byte `leaf.key[cm]`, and replaces the
leaf in the parent slot. -/
theorem insertRec_leaf_split_spec (fuel : Nat) (lk k : List Nat) (lv v : T)
    (depth cm : Nat)
    (hcmdef : cm = depth + commonPfx (lk.drop depth) (k.drop depth))
    (hne : k.length ≠ cm)
    (hdep : depth ≤ k.length)
    (hcm10 : cm - depth ≤ maxPrefixLen)
    (hlklen : cm < lk.length) :
    ∃ r,
      insertRec (fuel + 1) (.leaf lk lv) k depth v = r
      ∧ r.isN4 = true
      ∧ (r.infoOf).count = 2
      ∧ (r.infoOf).pfxLen = cm - depth
      ∧ (r.infoOf).pfx.take (cm - depth) = (k.drop depth).take (cm - depth)
      ∧ (depth < cm → (r.infoOf).pfx.getD 0 0 = k.getD depth 0)
      ∧ childByByte r (k.getD cm 0) = some (.leaf k v)
      ∧ childByByte r (lk.getD cm 0) = some (.leaf lk lv) := by
  have h10 : maxPrefixLen = 10 := rfl
  have hklen : cm < k.length := by
    rcases Nat.lt_or_ge cm k.length with h | h
    · exact h
    · exfalso
      have := commonPfx_le_right (lk.drop depth) (k.drop depth)
      simp [List.length_drop] at this
      omega
  have hdc : depth ≤ cm := by omega
  set kb := k.getD cm 0 with hkb
  set lb := lk.getD cm 0 with hlb
  have hne2 : lb ≠ kb := by
    have hdcm : depth + (cm - depth) = cm := by omega
    have h1 : (lk.drop depth).getD (cm - depth) 0 = lb := by
      rw [hlb]
      simp only [List.getD, List.get?_eq_getElem?, List.getElem?_drop]
      rw [hdcm]
    have h2 : (k.drop depth).getD (cm - depth) 0 = kb := by
      rw [hkb]
      simp only [List.getD, List.get?_eq_getElem?, List.getElem?_drop]
      rw [hdcm]
    have hcp : cm - depth = commonPfx (lk.drop depth) (k.drop depth) := by omega
    have hstop := commonPfx_stop (lk.drop depth) (k.drop depth)
      (by rw [← hcp]; simp only [List.length_drop]; omega)
      (by rw [← hcp]; simp only [List.length_drop]; omega)
    rw [← hcp, h1, h2] at hstop
    exact hstop
  have hmin : min maxPrefixLen ((k.drop depth).take (cm - depth)).length
      = cm - depth := by
    simp [List.length_take, List.length_drop]
    omega
  have heq : insertRec (fuel + 1) (Node.leaf lk lv) k depth v =
      (if lb < kb
        then Node.n4 [some (.leaf lk lv), some (.leaf k v), none, none]
          ⟨2, ((k.drop depth).take (cm - depth)).take (cm - depth)
              ++ List.replicate (maxPrefixLen - (cm - depth)) 0, cm - depth⟩
          [lb, kb, 0, 0]
        else Node.n4 [some (.leaf k v), some (.leaf lk lv), none, none]
          ⟨2, ((k.drop depth).take (cm - depth)).take (cm - depth)
              ++ List.replicate (maxPrefixLen - (cm - depth)) 0, cm - depth⟩
          [kb, lb, 0, 0]) := by
    simp only [insertRec]
    rw [← hcmdef]
    rw [if_neg hne]
    simp only [node4new, hmin]
    rw [node4add_first _ _ _ _ rfl]
    simp only [← hkb]
    rw [node4add_second _ _ _ _ _ _ rfl]
    simp only [← hlb]
    by_cases hlt : lb < kb <;> simp [hlt]
  have hlen' : (((k.drop depth).take (cm - depth))).length = cm - depth := by
    simp [List.length_take, List.length_drop]; omega
  have hP0 : (((k.drop depth).take (cm - depth)).take (cm - depth)
      ++ List.replicate (maxPrefixLen - (cm - depth)) 0).take (cm - depth)
      = (k.drop depth).take (cm - depth) := by
    rw [List.take_take, Nat.min_self]
    exact List.take_left' hlen'
  have hG : ∀ hd : depth < cm,
      ((((k.drop depth).take (cm - depth)).take (cm - depth)
        ++ List.replicate (maxPrefixLen - (cm - depth)) 0) : List Nat).getD 0 0
      = k.getD depth 0 := by
    intro hd
    have h1 : (((k.drop depth).take (cm - depth)).take (cm - depth)
        ++ List.replicate (maxPrefixLen - (cm - depth)) 0).getD 0 0
        = ((k.drop depth).take (cm - depth)).getD 0 0 := by
      rw [List.take_take, Nat.min_self]
      simp only [List.getD, List.get?_eq_getElem?]
      rw [List.getElem?_append_left (by rw [hlen']; omega)]
    rw [h1]
    simp only [List.getD, List.get?_eq_getElem?]
    rw [List.getElem?_take, if_pos (by omega), List.getElem?_drop]
    simp
  by_cases hlt : lb < kb
  · refine ⟨Node.n4 [some (.leaf lk lv), some (.leaf k v), none, none]
        ⟨2, ((k.drop depth).take (cm - depth)).take (cm - depth)
            ++ List.replicate (maxPrefixLen - (cm - depth)) 0, cm - depth⟩
        [lb, kb, 0, 0], by rw [heq, if_pos hlt], rfl, rfl, rfl, hP0,
      fun hd => hG hd, ?_, ?_⟩
    · simp [childByByte, Node.findChildIdx, findIdx4, List.range_succ,
        hne2, Node.cps]
    · simp [childByByte, Node.findChildIdx, findIdx4, List.range_succ, Node.cps]
  · refine ⟨Node.n4 [some (.leaf k v), some (.leaf lk lv), none, none]
        ⟨2, ((k.drop depth).take (cm - depth)).take (cm - depth)
            ++ List.replicate (maxPrefixLen - (cm - depth)) 0, cm - depth⟩
        [kb, lb, 0, 0], by rw [heq, if_neg hlt], rfl, rfl, rfl, hP0,
      fun hd => hG hd, ?_, ?_⟩
    · simp [childByByte, Node.findChildIdx, findIdx4, List.range_succ, Node.cps]
    · simp [childByByte, Node.findChildIdx, findIdx4, List.range_succ,
        Ne.symm hne2, Node.cps]


/-- Claim C3 (amended): during insert at an inner node, when the
common-prefix length `cm` between the node's partial and the key suffix at
the current depth is smaller than `partial_len`, the node is split: a fresh
N4 is created whose partial is `partial[..cm]`; the current node is attached
under key byte `partial[cm]` with its partial shifted to `partial[cm..]` and
its `partial_len` reduced by `cm` — not by `cm + 1` as the claim states: the
discriminator byte remains the first byte of the shifted partial; a new leaf
for the inserted key is attached under key byte `key[depth + cm]`; and the N4
(the `splitted` result, which `split_check` writes to the parent slot)
replaces the current node. -/
theorem c3_split_shifts_partial_by_cm (n : Node Nat) (k : List Nat)
    (depth : Nat) (newLeaf : Node Nat) (cm : Nat)
    (hInner : n.isLeaf = false)
    (hcmdef : cm = commonPfx ((n.infoOf).pfx.take (n.infoOf).pfxLen) (k.drop depth))
    (hlen : (n.infoOf).pfx.length = maxPrefixLen)
    (hpl : (n.infoOf).pfxLen ≤ maxPrefixLen)
    (hcm : cm < (n.infoOf).pfxLen)
    (hk : depth + cm < k.length) :
    ∃ r m,
      n.splitCheck k depth newLeaf = .splitted r
      ∧ r.isN4 = true
      ∧ (r.infoOf).count = 2
      ∧ (r.infoOf).pfxLen = cm
      ∧ (r.infoOf).pfx.take cm = (n.infoOf).pfx.take cm
      ∧ childByByte r (k.getD (depth + cm) 0) = some newLeaf
      ∧ childByByte r ((n.infoOf).pfx.getD cm 0) = some m
      ∧ m.cps = n.cps
      ∧ m.keysOf = n.keysOf
      ∧ m.isLeaf = false
      ∧ (m.infoOf).count = (n.infoOf).count
      ∧ (m.infoOf).pfxLen = (n.infoOf).pfxLen - cm
      ∧ (m.infoOf).pfx.take ((n.infoOf).pfxLen - cm)
          = ((n.infoOf).pfx.drop cm).take ((n.infoOf).pfxLen - cm)
      ∧ (m.infoOf).pfx.getD 0 0 = (n.infoOf).pfx.getD cm 0 :=
  splitCheck_mismatch_spec n k depth newLeaf cm hInner hcmdef hlen hpl hcm hk

/-- Witness for `c3_split_shifts_partial_by_cm`: the root holding keys
`[1,2,3,4]` and `[1,2,3,5]` (partial `[1,2,3]`) split by inserting
`[1,9,9,9]` (`cm = 1`): the old root reattaches under byte 2 with
`partial_len` 2. -/
theorem c3_split_shifts_partial_by_cm_witness :
    ∃ r m,
      (Node.n4 [some (Node.leaf [1, 2, 3, 4] 1), some (Node.leaf [1, 2, 3, 5] 2),
          none, none] ⟨2, [1, 2, 3, 0, 0, 0, 0, 0, 0, 0], 3⟩ [4, 5, 0, 0]
        : Node Nat).splitCheck [1, 9, 9, 9] 0 (Node.leaf [1, 9, 9, 9] 3)
        = .splitted r
      ∧ childByByte r 2 = some m
      ∧ (m.infoOf).pfxLen = 2 := by
  obtain ⟨r, m, h1, h2, h3, h4, h5, h6, h7, h8, h9, h10, h11, h12, h13, h14⟩ :=
    c3_split_shifts_partial_by_cm
      (Node.n4 [some (Node.leaf [1, 2, 3, 4] 1), some (Node.leaf [1, 2, 3, 5] 2),
        none, none] ⟨2, [1, 2, 3, 0, 0, 0, 0, 0, 0, 0], 3⟩ [4, 5, 0, 0])
      [1, 9, 9, 9] 0 (Node.leaf [1, 9, 9, 9] 3) 1
      rfl (by decide) rfl (by decide) (by decide) (by decide)
  exact ⟨r, m, h1, h7, h12⟩


/-- Claim C10: the implicit descent convention of this code.  (1) A node
split keeps the discriminator byte as the first byte of the reattached
node's own partial: the split reduces `partial_len` by `cm`, not `cm + 1`.
(2) The N4 created at a leaf split gets partial `key[depth..cm]`, starting
with `key[depth]`, the byte under which it is referenced.  (3)–(5) The
descent loops of `find`, `insert` and `delete` enter the child selected by
the key byte at the advanced depth without advancing depth past that byte,
so the discriminator byte is consumed as the first byte of the child's
prefix match. -/
theorem c10_descent_convention :
    (∀ (n : Node Nat) (k : List Nat) (depth : Nat) (newLeaf : Node Nat) (cm : Nat),
      n.isLeaf = false →
      cm = commonPfx ((n.infoOf).pfx.take (n.infoOf).pfxLen) (k.drop depth) →
      (n.infoOf).pfx.length = maxPrefixLen →
      (n.infoOf).pfxLen ≤ maxPrefixLen →
      cm < (n.infoOf).pfxLen →
      depth + cm < k.length →
      ∃ r m, n.splitCheck k depth newLeaf = .splitted r
        ∧ childByByte r ((n.infoOf).pfx.getD cm 0) = some m
        ∧ (m.infoOf).pfxLen = (n.infoOf).pfxLen - cm
        ∧ (m.infoOf).pfx.getD 0 0 = (n.infoOf).pfx.getD cm 0)
    ∧ (∀ (fuel : Nat) (lk k : List Nat) (lv v : Nat) (depth cm : Nat),
      cm = depth + commonPfx (lk.drop depth) (k.drop depth) →
      k.length ≠ cm →
      depth ≤ k.length →
      cm - depth ≤ maxPrefixLen →
      cm < lk.length →
      ∃ r, insertRec (fuel + 1) (.leaf lk lv) k depth v = r
        ∧ r.isN4 = true
        ∧ (r.infoOf).pfxLen = cm - depth
        ∧ (r.infoOf).pfx.take (cm - depth) = (k.drop depth).take (cm - depth)
        ∧ (depth < cm → (r.infoOf).pfx.getD 0 0 = k.getD depth 0))
    ∧ (∀ (fuel : Nat) (n c : Node Nat) (k : List Nat) (depth cm d2 i : Nat),
      n.isLeaf = false →
      cm = commonPfx ((n.infoOf).pfx.take (n.infoOf).pfxLen) (k.drop depth) →
      d2 = (if depth + cm = k.length then depth + cm - 1 else depth + cm) →
      n.findChildIdx (k.getD d2 0) = some i →
      (n.cps).getD i none = some c →
      findRec (fuel + 1) n k depth = findRec fuel c k d2)
    ∧ (∀ (fuel : Nat) (n c : Node Nat) (k : List Nat) (v : Nat) (depth i : Nat),
      n.isLeaf = false →
      commonPfx ((n.infoOf).pfx.take (n.infoOf).pfxLen) (k.drop depth)
        = (n.infoOf).pfxLen →
      n.findChildIdx (k.getD (depth + (n.infoOf).pfxLen) 0) = some i →
      (n.cps).getD i none = some c →
      insertRec (fuel + 1) n k depth v
        = n.setChildAt i (insertRec fuel c k (depth + (n.infoOf).pfxLen) v))
    ∧ (∀ (fuel : Nat) (n c : Node Nat) (k : List Nat) (depth cm d2 i : Nat),
      n.isLeaf = false →
      cm = commonPfx ((n.infoOf).pfx.take (n.infoOf).pfxLen) (k.drop depth) →
      d2 = (if depth + cm = k.length then depth + cm - 1 else depth + cm) →
      n.findChildIdx (k.getD d2 0) = some i →
      (n.cps).getD i none = some c →
      c.isLeaf = false →
      deleteRec (fuel + 1) n k depth = n.setChildAt i (deleteRec fuel c k d2)) := by
  refine ⟨?_, ?_, ?_, ?_, ?_⟩
  · intro n k depth newLeaf cm hInner hcmdef hlen hpl hcm hk
    obtain ⟨r, m, h1, _, _, _, _, _, h7, _, _, _, _, h12, _, h14⟩ :=
      splitCheck_mismatch_spec n k depth newLeaf cm hInner hcmdef hlen hpl hcm hk
    exact ⟨r, m, h1, h7, h12, h14⟩
  · intro fuel lk k lv v depth cm hcmdef hne hdep hcm10 hlklen
    obtain ⟨r, h1, h2, _, h4, h5, h6, _, _⟩ :=
      insertRec_leaf_split_spec fuel lk k lv v depth cm hcmdef hne hdep hcm10 hlklen
    exact ⟨r, h1, h2, h4, h5, h6⟩
  · intro fuel n c k depth cm d2 i hInner hcm hd2 hfind hc
    exact findRec_descends fuel n c k depth cm d2 i hInner hcm hd2 hfind hc
  · intro fuel n c k v depth i hInner hcm hfind hc
    exact insertRec_descends fuel n c k v depth i hInner hcm hfind hc
  · intro fuel n c k depth cm d2 i hInner hcm hd2 hfind hc hcInner
    exact deleteRec_descends fuel n c k depth cm d2 i hInner hcm hd2 hfind hc hcInner

/-- Witness for `c10_descent_convention`: one `find` descent step on the
root holding `[1,2]` and `[1,3]` with query `[1,2]` enters the leaf child at
depth 1 (the position of its discriminator byte), not depth 2. -/
theorem c10_descent_convention_witness :
    findRec 2 (Node.n4 [some (Node.leaf [1, 2] 7), some (Node.leaf [1, 3] 8),
        none, none] ⟨2, [1, 0, 0, 0, 0, 0, 0, 0, 0, 0], 1⟩ [2, 3, 0, 0] : Node Nat)
      [1, 2] 0
    = findRec 1 (Node.leaf [1, 2] 7 : Node Nat) [1, 2] 1 :=
  c10_descent_convention.2.2.1 1
    (Node.n4 [some (Node.leaf [1, 2] 7), some (Node.leaf [1, 3] 8),
      none, none] ⟨2, [1, 0, 0, 0, 0, 0, 0, 0, 0, 0], 1⟩ [2, 3, 0, 0])
    (Node.leaf [1, 2] 7) [1, 2] 0 1 1 0 rfl (by decide) (by decide)
    (by decide) rfl

theorem overwrite_zero (l xs : List α) : overwrite l 0 xs = xs ++ l.drop xs.length := by
  simp [overwrite]

/-- The merged prefix in the main case `partial_len + 1 < MAX_PREFIX_LEN`:
appending the discriminator and as much of the child partial as fits, then
copying back, equals the truncated concatenation. -/
theorem merge_take_core (P C : List Nat) (pl cpl d : Nat)
    (hP : P.length = 10) (hC : C.length = 10) (hpl : pl + 1 < 10) :
    (overwrite C 0
      ((overwrite (P.set pl d) (pl + 1) (C.take (min cpl (10 - (pl + 1))))).take
        (min (pl + 1 + min cpl (10 - (pl + 1))) 10))).take (min (cpl + pl + 1) 10)
    = List.take 10 (P.take pl ++ [d] ++ C.take (min cpl 10)) := by
  set s := min cpl (10 - (pl + 1)) with hs
  have hslen : (C.take s).length = s := by
    rw [List.length_take]; omega
  have hacc : min (pl + 1 + s) 10 = pl + 1 + s := by omega
  have hL : min (cpl + pl + 1) 10 = pl + 1 + s := by omega
  have hsetlen : (P.set pl d).length = 10 := by rw [List.length_set, hP]
  have hB1take : (P.set pl d).take (pl + 1) = P.take pl ++ [d] := by
    rw [List.set_eq_take_cons_drop d (by omega)]
    rw [List.take_append_eq_append_take, List.take_take]
    congr 1
    · congr 1; omega
    · rw [List.length_take]
      have : pl + 1 - min pl P.length = 1 := by omega
      rw [this]
      rfl
  have hB1takelen : ((P.set pl d).take (pl + 1)).length = pl + 1 := by
    rw [List.length_take]; omega
  have hB2take : (overwrite (P.set pl d) (pl + 1) (C.take s)).take (pl + 1 + s)
      = P.take pl ++ [d] ++ C.take s := by
    simp only [overwrite]
    rw [hslen]
    rw [List.take_append_eq_append_take]
    have hlen2 : ((P.set pl d).take (pl + 1) ++ C.take s).length = pl + 1 + s := by
      rw [List.length_append, hB1takelen, hslen]
    rw [hlen2, Nat.sub_self, List.take_zero, List.append_nil]
    rw [List.take_of_length_le (le_of_eq hlen2)]
    rw [hB1take]
  have hB2takelen : ((overwrite (P.set pl d) (pl + 1) (C.take s)).take
      (pl + 1 + s)).length = pl + 1 + s := by
    rw [hB2take]
    simp only [List.length_append, List.length_take, hP, hC]
    simp
    omega
  have hRHS : List.take 10 (P.take pl ++ [d] ++ C.take (min cpl 10))
      = P.take pl ++ [d] ++ C.take s := by
    rw [List.append_assoc, List.take_append_eq_append_take]
    have e6 : (P.take pl).length = pl := by rw [List.length_take]; omega
    rw [e6, List.take_of_length_le (by rw [e6]; omega)]
    rw [List.append_assoc]
    congr 1
    have e7 : 10 - pl = (10 - pl - 1) + 1 := by omega
    rw [e7]
    show List.take (10 - pl - 1 + 1) (d :: C.take (min cpl 10)) = [d] ++ C.take s
    rw [List.take_succ_cons, List.take_take]
    show d :: C.take (min (10 - pl - 1) (min cpl 10)) = [d] ++ C.take s
    congr 2
    omega
  rw [hacc, hL, overwrite_zero, hB2takelen]
  rw [List.take_append_eq_append_take, hB2takelen, Nat.sub_self,
    List.take_zero, List.append_nil]
  rw [List.take_of_length_le (le_of_eq hB2takelen)]
  rw [hB2take, hRHS]

/-- Claim C4: when `delete` removes the child at slot `pos` from a `Node4`
with two children, the surviving child is merged up into this node's
position: for an inner surviving child `c`, the result (which replaces the
node in its owner slot, the old node being freed) is `c` with the same
children and key array, its new populated partial equal to the concatenation
of the parent's `partial[..partial_len]`, then the discriminator byte
`key[0]` under which the survivor was stored (after the shift), then the
child's old populated partial, truncated to `MAX_PREFIX_LEN = 10` bytes, and
its `partial_len` extended by the parent's `partial_len` plus 1 (it may
exceed `MAX_PREFIX_LEN`). -/
theorem c4_n4_merge (cp : List (Option (Node T))) (keys : List Nat)
    (info : Info) (pos : Nat) (c : Node T)
    (hcount : info.count = 2)
    (hsurv : (shiftDel pos info.count cp).getD 0 none = some c)
    (hcInner : c.isLeaf = false)
    (hplen : info.pfx.length = maxPrefixLen)
    (hpl : info.pfxLen ≤ maxPrefixLen)
    (hclen : (c.infoOf).pfx.length = maxPrefixLen) :
    ∃ r, node4deleteChild cp keys info pos = r
      ∧ r.cps = c.cps
      ∧ r.keysOf = c.keysOf
      ∧ r.isLeaf = false
      ∧ (r.infoOf).count = (c.infoOf).count
      ∧ (r.infoOf).pfxLen = (c.infoOf).pfxLen + info.pfxLen + 1
      ∧ (r.infoOf).pfx.take (min ((c.infoOf).pfxLen + info.pfxLen + 1) maxPrefixLen)
          = List.take maxPrefixLen
              (info.pfx.take info.pfxLen
                ++ [(shiftDel pos info.count keys).getD 0 0]
                ++ (c.infoOf).pfx.take (min ((c.infoOf).pfxLen) maxPrefixLen)) := by
  have h10 : maxPrefixLen = 10 := rfl
  have heq : node4deleteChild cp keys info pos
      = c.setInfo
        { c.infoOf with
          pfx :=
            overwrite (c.infoOf).pfx 0
              ((if (if info.pfxLen < maxPrefixLen then info.pfxLen + 1 else info.pfxLen)
                    < maxPrefixLen
                then overwrite
                  (if info.pfxLen < maxPrefixLen
                    then info.pfx.set info.pfxLen ((shiftDel pos info.count keys).getD 0 0)
                    else info.pfx)
                  (if info.pfxLen < maxPrefixLen then info.pfxLen + 1 else info.pfxLen)
                  ((c.infoOf).pfx.take
                    (min (c.infoOf).pfxLen
                      (maxPrefixLen
                        - (if info.pfxLen < maxPrefixLen then info.pfxLen + 1 else info.pfxLen))))
                else (if info.pfxLen < maxPrefixLen
                  then info.pfx.set info.pfxLen ((shiftDel pos info.count keys).getD 0 0)
                  else info.pfx)).take
                (min
                  (if (if info.pfxLen < maxPrefixLen then info.pfxLen + 1 else info.pfxLen)
                      < maxPrefixLen
                    then (if info.pfxLen < maxPrefixLen then info.pfxLen + 1 else info.pfxLen)
                      + min (c.infoOf).pfxLen
                          (maxPrefixLen
                            - (if info.pfxLen < maxPrefixLen then info.pfxLen + 1
                                else info.pfxLen))
                    else (if info.pfxLen < maxPrefixLen then info.pfxLen + 1 else info.pfxLen))
                  maxPrefixLen))
          pfxLen := (c.infoOf).pfxLen + info.pfxLen + 1 } := by
    simp only [hcount, List.getD_eq_getElem?_getD] at hsurv
    simp only [node4deleteChild, hcount]
    norm_num
    rw [hsurv]
    simp [hcInner]
  have hInfoEq := Node.infoOf_setInfo c
    { c.infoOf with
      pfx :=
        overwrite (c.infoOf).pfx 0
          ((if (if info.pfxLen < maxPrefixLen then info.pfxLen + 1 else info.pfxLen)
                < maxPrefixLen
            then overwrite
              (if info.pfxLen < maxPrefixLen
                then info.pfx.set info.pfxLen ((shiftDel pos info.count keys).getD 0 0)
                else info.pfx)
              (if info.pfxLen < maxPrefixLen then info.pfxLen + 1 else info.pfxLen)
              ((c.infoOf).pfx.take
                (min (c.infoOf).pfxLen
                  (maxPrefixLen
                    - (if info.pfxLen < maxPrefixLen then info.pfxLen + 1 else info.pfxLen))))
            else (if info.pfxLen < maxPrefixLen
              then info.pfx.set info.pfxLen ((shiftDel pos info.count keys).getD 0 0)
              else info.pfx)).take
            (min
              (if (if info.pfxLen < maxPrefixLen then info.pfxLen + 1 else info.pfxLen)
                  < maxPrefixLen
                then (if info.pfxLen < maxPrefixLen then info.pfxLen + 1 else info.pfxLen)
                  + min (c.infoOf).pfxLen
                      (maxPrefixLen
                        - (if info.pfxLen < maxPrefixLen then info.pfxLen + 1
                            else info.pfxLen))
                else (if info.pfxLen < maxPrefixLen then info.pfxLen + 1 else info.pfxLen))
              maxPrefixLen))
      pfxLen := (c.infoOf).pfxLen + info.pfxLen + 1 } hcInner
  refine ⟨_, heq, Node.cps_setInfo c _, Node.keysOf_setInfo c _,
    by rw [Node.isLeaf_setInfo]; exact hcInner, by rw [hInfoEq], by rw [hInfoEq], ?_⟩
  rw [hInfoEq]
  simp only [maxPrefixLen] at *
  set d := (shiftDel pos info.count keys).getD 0 0 with hd
  by_cases h1 : info.pfxLen < 10
  · by_cases h2 : info.pfxLen + 1 < 10
    · simp only [if_pos h1, if_pos h2]
      exact merge_take_core info.pfx (c.infoOf).pfx info.pfxLen (c.infoOf).pfxLen d
        hplen hclen h2
    · have hpl9 : info.pfxLen = 9 := by omega
      simp only [hpl9]
      norm_num
      have hsetlen : (info.pfx.set 9 d).length = 10 := by
        rw [List.length_set, hplen]
      rw [List.take_of_length_le (le_of_eq hsetlen)]
      rw [overwrite_zero, hsetlen]
      rw [List.drop_eq_nil_of_le (by omega), List.append_nil]
      have hset : info.pfx.set 9 d = info.pfx.take 9 ++ [d] := by
        rw [List.set_eq_take_cons_drop d (by omega)]
        rw [List.drop_eq_nil_of_le (by omega)]
      rw [List.take_of_length_le (le_of_eq hsetlen)]
      rw [hset]
      rw [List.take_append_eq_append_take, List.take_take]
      have e9 : (info.pfx.take 9).length = 9 := by rw [List.length_take]; omega
      rw [e9]
      rfl
  · have hpl10 : info.pfxLen = 10 := by omega
    simp only [hpl10]
    norm_num
    have htp : info.pfx.take 10 = info.pfx := List.take_of_length_le (le_of_eq hplen)
    rw [htp]
    rw [overwrite_zero, hplen]
    rw [List.drop_eq_nil_of_le (by omega), List.append_nil]
    rw [List.take_append_eq_append_take, hplen, Nat.sub_self, List.take_zero,
      List.append_nil]


/-- Witness for `c4_n4_merge`: deleting the leaf `[1,9,9,9]` from the
two-child root produced by the C8 scenario merges the surviving inner child
up with populated partial `[1,2,2,3]` and `partial_len` 4. -/
theorem c4_n4_merge_witness :
    ∃ r, node4deleteChild
        [some (Node.n4 [some (Node.leaf [1, 2, 3, 4] 1),
            some (Node.leaf [1, 2, 3, 5] 2), none, none]
            ⟨2, [2, 3, 3, 0, 0, 0, 0, 0, 0, 0], 2⟩ [4, 5, 0, 0]),
          some (Node.leaf [1, 9, 9, 9] 7), none, none]
        [2, 9, 0, 0] (⟨2, [1, 0, 0, 0, 0, 0, 0, 0, 0, 0], 1⟩ : Info) 1
      = (r : Node Nat)
      ∧ (r.infoOf).pfxLen = 4
      ∧ (r.infoOf).pfx.take 4 = [1, 2, 2, 3] := by
  obtain ⟨r, h1, _, _, _, _, h6, h7⟩ :=
    c4_n4_merge
      [some (Node.n4 [some (Node.leaf [1, 2, 3, 4] 1),
          some (Node.leaf [1, 2, 3, 5] 2), none, none]
          ⟨2, [2, 3, 3, 0, 0, 0, 0, 0, 0, 0], 2⟩ [4, 5, 0, 0]),
        some (Node.leaf [1, 9, 9, 9] 7), none, none]
      [2, 9, 0, 0] (⟨2, [1, 0, 0, 0, 0, 0, 0, 0, 0, 0], 1⟩ : Info) 1
      (Node.n4 [some (Node.leaf [1, 2, 3, 4] 1),
          some (Node.leaf [1, 2, 3, 5] 2), none, none]
          ⟨2, [2, 3, 3, 0, 0, 0, 0, 0, 0, 0], 2⟩ [4, 5, 0, 0])
      rfl rfl rfl rfl (by decide) rfl
  exact ⟨r, h1, h6, h7⟩

theorem n16pos_le (keys : List Nat) (count b : Nat) : n16pos keys count b ≤ count := by
  unfold n16pos
  match h : (List.range count).find? (fun i => sByte b < sByte (keys.getD i 0)) with
  | none => simp
  | some i =>
    simp only [Option.getD_some]
    have := List.find?_some h
    have hm := List.mem_of_find?_eq_some h
    simp [List.mem_range] at hm
    omega

theorem insert_shape (l : List α) (i count : Nat) (b : α)
    (hi : i ≤ count) (hcount : count < l.length) :
    ((shiftIns i count l).set i b).take (count + 1)
      = l.take i ++ b :: ((l.drop i).take (count - i)) := by
  have hlen1 : (l.take (i + 1)).length = i + 1 := by
    rw [List.length_take]
    rw [Nat.min_eq_left (by omega)]
  have hlen2 : ((l.drop i).take (count - i)).length = count - i := by
    rw [List.length_take, List.length_drop]
    rw [Nat.min_eq_left (by omega)]
  have hlen12 : (l.take (i + 1) ++ (l.drop i).take (count - i)).length
      = count + 1 := by
    rw [List.length_append, hlen1, hlen2]
    omega
  have hset : (shiftIns i count l).set i b
      = (shiftIns i count l).take i ++ b :: (shiftIns i count l).drop (i + 1) := by
    refine List.set_eq_take_cons_drop b ?_
    simp only [shiftIns, List.length_append, hlen1, hlen2]
    omega
  have htk : (shiftIns i count l).take i = l.take i := by
    simp only [shiftIns]
    rw [List.take_append_of_le_length (by rw [hlen12]; omega)]
    rw [List.take_append_of_le_length (by rw [hlen1]; omega)]
    rw [List.take_take]
    congr 1
    omega
  have hdp : (shiftIns i count l).drop (i + 1)
      = (l.drop i).take (count - i) ++ l.drop (count + 1) := by
    simp only [shiftIns]
    rw [List.drop_append_eq_append_drop]
    rw [List.drop_append_eq_append_drop]
    rw [hlen1, hlen12]
    rw [List.drop_of_length_le (le_of_eq hlen1), Nat.sub_self, List.drop_zero,
      List.nil_append]
    have e : i + 1 - (count + 1) = 0 := by omega
    rw [e, List.drop_zero]
  rw [hset, htk, hdp]
  rw [List.take_append_eq_append_take]
  have e2 : (l.take i).length = i := by
    rw [List.length_take]
    rw [Nat.min_eq_left (by omega)]
  rw [e2, List.take_of_length_le (by omega : (l.take i).length ≤ count + 1)]
  have e3 : count + 1 - i = (count - i) + 1 := by omega
  rw [e3, List.take_succ_cons]
  rw [List.take_append_eq_append_take]
  rw [hlen2, Nat.sub_self, List.take_zero, List.append_nil]
  rw [List.take_of_length_le (le_of_eq hlen2)]

theorem getD_set_self (l : List Nat) (i a d : Nat) (h : i < l.length) :
    (l.set i a).getD i d = a := by
  simp [List.getD, List.getElem?_set, h]

theorem getD_set_ne (l : List Nat) (i j a d : Nat) (h : i ≠ j) :
    (l.set i a).getD j d = l.getD j d := by
  simp [List.getD, List.getElem?_set, h]

theorem getD_set_self2 (l : List α) (i : Nat) (a d : α) (h : i < l.length) :
    (l.set i a).getD i d = a := by
  simp [List.getD, List.getElem?_set, h]

theorem getD_set_ne2 (l : List α) (i j : Nat) (a d : α) (h : i ≠ j) :
    (l.set i a).getD j d = l.getD j d := by
  simp [List.getD, List.getElem?_set, h]

theorem getD_append_left (l m : List α) (i : Nat) (d : α) (h : i < l.length) :
    (l ++ m).getD i d = l.getD i d := by
  simp [List.getD, List.getElem?_append_left h]

theorem getD_map_range (f : Nat → α) (n i : Nat) (d : α) (h : i < n) :
    ((List.range n).map f).getD i d = f i := by
  simp [List.getD, List.getElem?_map, List.getElem?_range h]

/-- Length of the byte map built by the `key[keys[i]] = i` loop of the
N16-to-N48 grow. -/
theorem buildMap_length (keys : List Nat) (count : Nat) (init : List Nat) :
    ((List.range count).foldl (fun m i => m.set (keys.getD i 0) i) init).length
      = init.length := by
  induction count with
  | zero => rfl
  | succ n ih =>
    rw [List.range_succ, List.foldl_append]
    simp only [List.foldl_cons, List.foldl_nil, List.length_set]
    exact ih

/-- Lookup in the byte map built by the `key[keys[i]] = i` loop: distinct key
bytes map back to their positions. -/
theorem buildMap_getD (keys : List Nat) (count j : Nat) (init : List Nat)
    (hj : j < count)
    (hinj : ∀ i1, i1 < count → ∀ i2, i2 < count →
      keys.getD i1 0 = keys.getD i2 0 → i1 = i2)
    (hlen : keys.getD j 0 < init.length) :
    ((List.range count).foldl (fun m i => m.set (keys.getD i 0) i) init).getD
      (keys.getD j 0) 48 = j := by
  induction count with
  | zero => omega
  | succ n ih =>
    rw [List.range_succ, List.foldl_append]
    simp only [List.foldl_cons, List.foldl_nil]
    by_cases hjn : j = n
    · subst hjn
      refine getD_set_self _ _ _ _ ?_
      rw [buildMap_length]
      exact hlen
    · have hne : keys.getD n 0 ≠ keys.getD j 0 := by
        intro h
        exact hjn ((hinj n (by omega) j (by omega) h).symm)
      rw [getD_set_ne _ _ _ _ _ hne]
      exact ih (by omega) (fun i1 h1 i2 h2 h => hinj i1 (by omega) i2 (by omega) h)

/-- The first-free-slot scan of `Node48::add` lands just past a fully
populated prefix. -/
theorem findIdx_first_none (cp rest : List (Option (Node T)))
    (hfull : ∀ x ∈ cp, x.isSome = true) :
    ((cp ++ none :: rest).findIdx (fun s => s.isNone)) = cp.length := by
  induction cp with
  | nil => simp [List.findIdx_cons]
  | cons x xs ih =>
    have hx : x.isSome = true := hfull x (by simp)
    have hx2 : x.isNone = false := by
      cases x <;> simp_all
    simp only [List.cons_append, List.findIdx_cons, hx2]
    simp only [cond_false]
    rw [ih (fun y hy => hfull y (by simp [hy]))]
    simp

/-- The fifth `add` to a full `Node4` grows it to a `Node16` holding the four
old keys and children in order, with the new child inserted at the position
`p` chosen by the (signed) comparison loop. -/
theorem addOrGrow_n4_grow (cp : List (Option (Node T))) (keys : List Nat)
    (info : Info) (k : List Nat) (d2 : Nat) (newLeaf : Node T)
    (hcount : info.count = 4) (hcp : cp.length = 4) (hkeys : keys.length = 4) :
    ∃ p, p ≤ 4
      ∧ (addOrGrow (.n4 cp info keys) k d2 newLeaf).isN16 = true
      ∧ ((addOrGrow (.n4 cp info keys) k d2 newLeaf).infoOf).count = 5
      ∧ ((addOrGrow (.n4 cp info keys) k d2 newLeaf).keysOf).take 5
          = keys.take p ++ (k.getD d2 0) :: keys.drop p
      ∧ ((addOrGrow (.n4 cp info keys) k d2 newLeaf).cps).take 5
          = cp.take p ++ some newLeaf :: cp.drop p := by
  have htk : keys.take 4 = keys := List.take_of_length_le (le_of_eq hkeys)
  have htc : cp.take 4 = cp := List.take_of_length_le (le_of_eq hcp)
  have heq : addOrGrow (.n4 cp info keys) k d2 newLeaf
      = Node.n16
          ((shiftIns (n16pos (keys ++ List.replicate 12 0) 4 (k.getD d2 0)) 4
            (cp ++ List.replicate 12 none)).set
            (n16pos (keys ++ List.replicate 12 0) 4 (k.getD d2 0)) (some newLeaf))
          { info with count := 5 }
          ((shiftIns (n16pos (keys ++ List.replicate 12 0) 4 (k.getD d2 0)) 4
            (keys ++ List.replicate 12 0)).set
            (n16pos (keys ++ List.replicate 12 0) 4 (k.getD d2 0)) (k.getD d2 0)) := by
    simp only [addOrGrow, hcount, node16add, htk, htc]
    norm_num
  set b := k.getD d2 0 with hb
  set p := n16pos (keys ++ List.replicate 12 0) 4 b with hp
  have hple : p ≤ 4 := n16pos_le (keys ++ List.replicate 12 0) 4 b
  have hlk : (keys ++ List.replicate 12 0).length = 16 := by
    simp [hkeys]
  have hlc : (cp ++ List.replicate 12 none).length = 16 := by
    simp [hcp]
  have hsk := insert_shape (keys ++ List.replicate 12 0) p 4 b hple (by omega)
  have hsc := insert_shape (cp ++ List.replicate 12 none) p 4 (some newLeaf) hple
    (by omega)
  have htkp : (keys ++ List.replicate 12 0).take p = keys.take p :=
    List.take_append_of_le_length (by omega)
  have htcp : (cp ++ List.replicate 12 none).take p = cp.take p :=
    List.take_append_of_le_length (by omega)
  have hdkp : ((keys ++ List.replicate 12 0).drop p).take (4 - p) = keys.drop p := by
    rw [List.drop_append_eq_append_drop]
    rw [List.take_append_of_le_length (by rw [List.length_drop]; omega)]
    rw [List.take_of_length_le (by rw [List.length_drop]; omega)]
  have hdcp : ((cp ++ List.replicate 12 none).drop p).take (4 - p) = cp.drop p := by
    rw [List.drop_append_eq_append_drop]
    rw [List.take_append_of_le_length (by rw [List.length_drop]; omega)]
    rw [List.take_of_length_le (by rw [List.length_drop]; omega)]
  refine ⟨p, hple, ?_, ?_, ?_, ?_⟩
  · rw [heq]; rfl
  · rw [heq]; rfl
  · rw [heq]
    show ((shiftIns p 4 (keys ++ List.replicate 12 0)).set p b).take 5
      = keys.take p ++ b :: keys.drop p
    rw [hsk, htkp, hdkp]
  · rw [heq]
    show ((shiftIns p 4 (cp ++ List.replicate 12 none)).set p (some newLeaf)).take 5
      = cp.take p ++ some newLeaf :: cp.drop p
    rw [hsc, htcp, hdcp]


/-- The seventeenth `add` to a full `Node16` grows it to a `Node48` whose
byte map satisfies `key[keys[i]] = i` for the sixteen copied children, with
the new leaf in slot 16 under the new byte. -/
theorem addOrGrow_n16_grow (cp : List (Option (Node T))) (keys : List Nat)
    (info : Info) (k : List Nat) (d2 : Nat) (newLeaf : Node T)
    (hcount : info.count = 16) (hcp : cp.length = 16) (hkeys : keys.length = 16)
    (hbyte : ∀ i, i < 16 → keys.getD i 0 < 256)
    (hinj : ∀ i1, i1 < 16 → ∀ i2, i2 < 16 →
      keys.getD i1 0 = keys.getD i2 0 → i1 = i2)
    (hfull : ∀ x ∈ cp, (x : Option (Node T)).isSome = true)
    (hb : ∀ i, i < 16 → keys.getD i 0 ≠ k.getD d2 0)
    (hblt : k.getD d2 0 < 256) :
    (addOrGrow (.n16 cp info keys) k d2 newLeaf).isN48 = true
    ∧ ((addOrGrow (.n16 cp info keys) k d2 newLeaf).infoOf).count = 17
    ∧ (∀ i, i < 16 →
        ((addOrGrow (.n16 cp info keys) k d2 newLeaf).keysOf).getD
          (keys.getD i 0) 48 = i)
    ∧ (∀ i, i < 16 →
        ((addOrGrow (.n16 cp info keys) k d2 newLeaf).cps).getD i none
          = cp.getD i none)
    ∧ ((addOrGrow (.n16 cp info keys) k d2 newLeaf).cps).getD 16 none
        = some newLeaf
    ∧ ((addOrGrow (.n16 cp info keys) k d2 newLeaf).keysOf).getD
        (k.getD d2 0) 48 = 16 := by
  have htc : cp.take 16 = cp := List.take_of_length_le (le_of_eq hcp)
  have hrep : (List.replicate 32 (none : Option (Node T)))
      = none :: List.replicate 31 none := rfl
  have hidx : ((cp ++ List.replicate 32 (none : Option (Node T))).findIdx
      (fun s => s.isNone)) = 16 := by
    rw [hrep, findIdx_first_none cp (List.replicate 31 none) hfull, hcp]
  have heq : addOrGrow (.n16 cp info keys) k d2 newLeaf
      = Node.n48
          ((cp ++ List.replicate 32 none).set 16 (some newLeaf))
          (((List.range 16).foldl (fun m i => m.set (keys.getD i 0) i)
            (List.replicate 256 48)).set (k.getD d2 0) 16)
          { info with count := 17 } := by
    simp only [addOrGrow, hcount, node48add, htc, hidx]
    rw [if_neg (by omega)]
  have hmaplen : ((List.range 16).foldl (fun m i => m.set (keys.getD i 0) i)
      (List.replicate 256 48)).length = 256 := by
    rw [buildMap_length, List.length_replicate]
  refine ⟨by rw [heq]; rfl, by rw [heq]; rfl, ?_, ?_, ?_, ?_⟩
  · intro i hi
    rw [heq]
    simp only [Node.keysOf]
    rw [getD_set_ne _ _ _ _ _ (fun h => hb i hi h.symm)]
    refine buildMap_getD keys 16 i (List.replicate 256 48) hi hinj ?_
    rw [List.length_replicate]
    exact hbyte i hi
  · intro i hi
    rw [heq]
    simp only [Node.cps]
    rw [getD_set_ne2 _ _ _ _ _ (by omega)]
    exact getD_append_left _ _ _ _ (by omega)
  · rw [heq]
    simp only [Node.cps]
    have hl : (16 : Nat) < (cp ++ List.replicate 32 (none : Option (Node T))).length := by
      rw [List.length_append, hcp, List.length_replicate]
      omega
    exact getD_set_self2 _ _ _ _ hl
  · rw [heq]
    simp only [Node.keysOf]
    exact getD_set_self _ _ _ _ (by rw [hmaplen]; exact hblt)

/-- The forty-ninth `add` to a full `Node48` grows it to a `Node256` in
which, for each byte `b2` with a non-sentinel map entry, the child sits at
`child_pointers[b2]`, and the new leaf sits at the new byte's position. -/
theorem addOrGrow_n48_grow (cp : List (Option (Node T))) (keymap : List Nat)
    (info : Info) (k : List Nat) (d2 : Nat) (newLeaf : Node T)
    (hcount : info.count = 48) (hkm : keymap.length = 256)
    (hbsent : keymap.getD (k.getD d2 0) 48 = 48)
    (hblt : k.getD d2 0 < 256) :
    (addOrGrow (.n48 cp keymap info) k d2 newLeaf).isN256 = true
    ∧ ((addOrGrow (.n48 cp keymap info) k d2 newLeaf).infoOf).count = 49
    ∧ (∀ b2, b2 < 256 → b2 ≠ k.getD d2 0 → keymap.getD b2 48 ≠ 48 →
        ((addOrGrow (.n48 cp keymap info) k d2 newLeaf).cps).getD b2 none
          = cp.getD (keymap.getD b2 48) none)
    ∧ ((addOrGrow (.n48 cp keymap info) k d2 newLeaf).cps).getD
        (k.getD d2 0) none = some newLeaf := by
  have heq : addOrGrow (.n48 cp keymap info) k d2 newLeaf
      = Node.n256
          (((List.range 256).map (fun i => if keymap.getD i 48 ≠ 48
              then cp.getD (keymap.getD i 48) none else none)).set
            (k.getD d2 0) (some newLeaf))
          { info with count := 49 } := by
    simp only [addOrGrow, hcount, node256add]
    rw [if_neg (by omega)]
  have hmaplen : ((List.range 256).map (fun i => if keymap.getD i 48 ≠ 48
      then cp.getD (keymap.getD i 48) none else (none : Option (Node T)))).length
      = 256 := by
    rw [List.length_map, List.length_range]
  refine ⟨by rw [heq]; rfl, by rw [heq]; rfl, ?_, ?_⟩
  · intro b2 hb2 hneq hsent
    rw [heq]
    simp only [Node.cps]
    rw [getD_set_ne2 _ _ _ _ _ (fun h => hneq h.symm)]
    rw [getD_map_range _ _ _ _ hb2]
    rw [if_pos hsent]
  · rw [heq]
    simp only [Node.cps]
    exact getD_set_self2 _ _ _ _ (by rw [hmaplen]; exact hblt)


/-- Claim C5: adding a child to a full inner node grows it to the next
variant with the stated copy rules.  (1) Concretely, after inserting the u32
keys 10, 20, 30, 40, 50 the deepest (and only) inner node is a `Node16`
(capacity 16) with exactly 5 children and all five keys remain findable with
their values.  (2) The 5th child added to an N4 produces an N16 holding the
4 old keys and children in order plus the new child.  (3) The 17th child
added to an N16 produces an N48 with `key[keys[i]] = i`.  (4) The 49th child
added to an N48 produces an N256 in which, for each byte `b` with
`key[b] != 48`, the child is placed at `child_pointers[b]`. -/
theorem c5_grow_transitions :
    (([10, 20, 30, 40, 50].foldl (fun t n => t.insert 64 (beBytes 4 n) n)
        (Art.new : Art Nat)).root.map
      (fun n => (Node.isN16 n, (Node.infoOf n).count)) = some (true, 5))
    ∧ ([10, 20, 30, 40, 50].map
        (fun n2 => ([10, 20, 30, 40, 50].foldl
          (fun t n => t.insert 64 (beBytes 4 n) n) (Art.new : Art Nat)).find 64
          (beBytes 4 n2))
      = [some 10, some 20, some 30, some 40, some 50])
    ∧ (∀ (cp : List (Option (Node Nat))) (keys : List Nat) (info : Info)
        (k : List Nat) (d2 : Nat) (newLeaf : Node Nat),
      info.count = 4 → cp.length = 4 → keys.length = 4 →
      ∃ p, p ≤ 4
        ∧ (addOrGrow (.n4 cp info keys) k d2 newLeaf).isN16 = true
        ∧ ((addOrGrow (.n4 cp info keys) k d2 newLeaf).infoOf).count = 5
        ∧ ((addOrGrow (.n4 cp info keys) k d2 newLeaf).keysOf).take 5
            = keys.take p ++ (k.getD d2 0) :: keys.drop p
        ∧ ((addOrGrow (.n4 cp info keys) k d2 newLeaf).cps).take 5
            = cp.take p ++ some newLeaf :: cp.drop p)
    ∧ (∀ (cp : List (Option (Node Nat))) (keys : List Nat) (info : Info)
        (k : List Nat) (d2 : Nat) (newLeaf : Node Nat),
      info.count = 16 → cp.length = 16 → keys.length = 16 →
      (∀ i, i < 16 → keys.getD i 0 < 256) →
      (∀ i1, i1 < 16 → ∀ i2, i2 < 16 → keys.getD i1 0 = keys.getD i2 0 → i1 = i2) →
      (∀ x ∈ cp, (x : Option (Node Nat)).isSome = true) →
      (∀ i, i < 16 → keys.getD i 0 ≠ k.getD d2 0) →
      k.getD d2 0 < 256 →
      (addOrGrow (.n16 cp info keys) k d2 newLeaf).isN48 = true
      ∧ ((addOrGrow (.n16 cp info keys) k d2 newLeaf).infoOf).count = 17
      ∧ (∀ i, i < 16 →
          ((addOrGrow (.n16 cp info keys) k d2 newLeaf).keysOf).getD
            (keys.getD i 0) 48 = i)
      ∧ (∀ i, i < 16 →
          ((addOrGrow (.n16 cp info keys) k d2 newLeaf).cps).getD i none
            = cp.getD i none)
      ∧ ((addOrGrow (.n16 cp info keys) k d2 newLeaf).cps).getD 16 none
          = some newLeaf)
    ∧ (∀ (cp : List (Option (Node Nat))) (keymap : List Nat) (info : Info)
        (k : List Nat) (d2 : Nat) (newLeaf : Node Nat),
      info.count = 48 → keymap.length = 256 →
      keymap.getD (k.getD d2 0) 48 = 48 → k.getD d2 0 < 256 →
      (addOrGrow (.n48 cp keymap info) k d2 newLeaf).isN256 = true
      ∧ ((addOrGrow (.n48 cp keymap info) k d2 newLeaf).infoOf).count = 49
      ∧ (∀ b2, b2 < 256 → b2 ≠ k.getD d2 0 → keymap.getD b2 48 ≠ 48 →
          ((addOrGrow (.n48 cp keymap info) k d2 newLeaf).cps).getD b2 none
            = cp.getD (keymap.getD b2 48) none)
      ∧ ((addOrGrow (.n48 cp keymap info) k d2 newLeaf).cps).getD
          (k.getD d2 0) none = some newLeaf) := by
  refine ⟨by decide, by decide, ?_, ?_, ?_⟩
  · intro cp keys info k d2 newLeaf h1 h2 h3
    exact addOrGrow_n4_grow cp keys info k d2 newLeaf h1 h2 h3
  · intro cp keys info k d2 newLeaf h1 h2 h3 h4 h5 h6 h7 h8
    obtain ⟨g1, g2, g3, g4, g5, _⟩ :=
      addOrGrow_n16_grow cp keys info k d2 newLeaf h1 h2 h3 h4 h5 h6 h7 h8
    exact ⟨g1, g2, g3, g4, g5⟩
  · intro cp keymap info k d2 newLeaf h1 h2 h3 h4
    exact addOrGrow_n48_grow cp keymap info k d2 newLeaf h1 h2 h3 h4

/-- Witness for `c5_grow_transitions`: the fifth child (byte 9) added to a
full `Node4` with key bytes 1, 2, 3, 4 produces a `Node16` with five
children. -/
theorem c5_grow_transitions_witness :
    ∃ p, p ≤ 4
      ∧ (addOrGrow (.n4 [some (Node.leaf [1, 1] 1), some (Node.leaf [2, 2] 2),
          some (Node.leaf [3, 3] 3), some (Node.leaf [4, 4] 4)]
          ⟨4, [0, 0, 0, 0, 0, 0, 0, 0, 0, 0], 0⟩ [1, 2, 3, 4] : Node Nat)
          [9] 0 (Node.leaf [9] 9)).isN16 = true
      ∧ ((addOrGrow (.n4 [some (Node.leaf [1, 1] 1), some (Node.leaf [2, 2] 2),
          some (Node.leaf [3, 3] 3), some (Node.leaf [4, 4] 4)]
          ⟨4, [0, 0, 0, 0, 0, 0, 0, 0, 0, 0], 0⟩ [1, 2, 3, 4] : Node Nat)
          [9] 0 (Node.leaf [9] 9)).infoOf).count = 5
      ∧ ((addOrGrow (.n4 [some (Node.leaf [1, 1] 1), some (Node.leaf [2, 2] 2),
          some (Node.leaf [3, 3] 3), some (Node.leaf [4, 4] 4)]
          ⟨4, [0, 0, 0, 0, 0, 0, 0, 0, 0, 0], 0⟩ [1, 2, 3, 4] : Node Nat)
          [9] 0 (Node.leaf [9] 9)).keysOf).take 5
        = [1, 2, 3, 4].take p ++ 9 :: [1, 2, 3, 4].drop p
      ∧ ((addOrGrow (.n4 [some (Node.leaf [1, 1] 1), some (Node.leaf [2, 2] 2),
          some (Node.leaf [3, 3] 3), some (Node.leaf [4, 4] 4)]
          ⟨4, [0, 0, 0, 0, 0, 0, 0, 0, 0, 0], 0⟩ [1, 2, 3, 4] : Node Nat)
          [9] 0 (Node.leaf [9] 9)).cps).take 5
        = [some (Node.leaf [1, 1] 1), some (Node.leaf [2, 2] 2),
            some (Node.leaf [3, 3] 3), some (Node.leaf [4, 4] 4)].take p
          ++ some (Node.leaf [9] 9)
            :: [some (Node.leaf [1, 1] 1), some (Node.leaf [2, 2] 2),
              some (Node.leaf [3, 3] 3), some (Node.leaf [4, 4] 4)].drop p := by
  have h := c5_grow_transitions.2.2.1
    [some (Node.leaf [1, 1] 1), some (Node.leaf [2, 2] 2),
      some (Node.leaf [3, 3] 3), some (Node.leaf [4, 4] 4)]
    [1, 2, 3, 4] ⟨4, [0, 0, 0, 0, 0, 0, 0, 0, 0, 0], 0⟩
    [9] 0 (Node.leaf [9] 9) rfl rfl rfl
  exact h

end Radix
